import Mathlib

/-!
Shallow embedding of the MCTS self-play reinforcement-learning core
(`src/rlearn/mcts.py`, `src/rlearn/blackjack.py`, `src/drlearn/game.py`).

Conventions of the embedding:
* Python floats are modelled by `ℚ`; the two non-algebraic float
  operations that the search uses (`math.sqrt` and `x ** e`) are passed
  in as explicit function parameters of the context, since no claim
  depends on their numeric values.
* The game object is a record of the methods of the `Game` contract;
  any randomness inside a concrete game (card dealing) is resolved into
  the supplied transition function.
* The random draws of `np.random.choice` are modelled by explicit
  choice-function parameters (`chooser` for the temperature-0 tie break,
  `sampler` for the self-play action draw).
* Python dicts are association lists with prepend-insert semantics.
* The recursion of `MCTS.search` is driven by an explicit fuel
  parameter; `none` means the fuel ran out (the Python code has no such
  bound; every claim is stated about runs that do complete).
* `logging.error` calls are modelled by an event list carried in the
  statistics record, so that emitted signals are observable.
-/

namespace RL

/-- Association-list lookup, modelling Python dict membership/read. -/
def lookupKV {κ α : Type} [DecidableEq κ] : List (κ × α) → κ → Option α
  | [], _ => none
  | (k, v) :: rest, k' => if k' = k then some v else lookupKV rest k'

/-- Association-list insert (prepend; newest binding shadows), modelling Python dict write. -/
def insertKV {κ α : Type} [DecidableEq κ] (l : List (κ × α)) (k : κ) (v : α) : List (κ × α) :=
  (k, v) :: l

/-- EPS = 1e-8 from mcts.py. -/
def EPS : ℚ := 1 / 100000000

/-- Observable log events; `allValidMovesMasked` models the
`logging.error("All valid moves were masked, doing a workaround.")` call. -/
inductive LogEvent
  | allValidMovesMasked
  deriving DecidableEq, Repr

/-- The MCTS statistics tables (`Qsa`, `Nsa`, `Ns`, `Ps` in `MCTS.__init__`),
plus the list of emitted log events. -/
structure Tables where
  Qsa : List ((String × Int) × ℚ)
  Nsa : List ((String × Int) × Nat)
  Ns : List (String × Nat)
  Ps : List (String × List ℚ)
  log : List LogEvent
  deriving DecidableEq, Repr

/-- Fresh statistics tables, as built by `MCTS.__init__`. -/
def emptyTables : Tables := ⟨[], [], [], [], []⟩

/-- The game contract (class `Game` of game.py, as consumed by mcts.py and
the self-play loop).  `σ` is the state type; `ν` is the type of the encoded
neural input `to_neural_state(state)[0]`. -/
structure GameE (σ ν : Type) where
  actionSize : Nat
  alternate_turn : Bool
  player_agnostic_state : Bool
  state_to_string : σ → String
  statePlayer : σ → Int
  stateReward : σ → ℚ
  get_game_ended : σ → Int → ℚ
  get_valid_actions : σ → Int → List ℚ
  get_next_state : σ → Int → Int → σ
  get_player_agnostic_state : σ → Int → σ
  to_neural : σ → ν

/-- Context of one MCTS engine: the exploration constant, the float
operations, the two oracles (`nnet`, `nnet_opponent`) and the random
tie-break choice of `np.random.choice`. -/
structure MCTSCtx (ν : Type) where
  cpuct : ℚ
  sqrtQ : ℚ → ℚ
  fpow : ℚ → ℚ → ℚ
  predict : ν → List ℚ × ℚ
  predictOpp : ν → List ℚ × ℚ
  chooser : List Nat → Nat

variable {σ ν : Type}

/-- Line 74 of mcts.py: `player = 1 if self.game.alternate_turn else current_player`. -/
def resolvedPlayer (g : GameE σ ν) (state : σ) : Int :=
  if g.alternate_turn then 1 else g.statePlayer state

/-- The search node key `s = self.game.state_to_string(state)`. -/
def keyOf (g : GameE σ ν) (state : σ) : String :=
  g.state_to_string state

/-- `self.Nsa[(s, a)] if (s, a) in self.Nsa else 0`. -/
def getNsa (t : Tables) (s : String) (a : Int) : Nat :=
  (lookupKV t.Nsa (s, a)).getD 0

/-- Read of `self.Ns[s]` (present at every reachable read; 0 as default). -/
def getNs (t : Tables) (s : String) : Nat :=
  (lookupKV t.Ns s).getD 0

/-- Lines 84-87 of mcts.py: oracle selection by `current_player` and the
`predict` call on `to_neural_state(state)[0]`. -/
def policy0 (g : GameE σ ν) (ctx : MCTSCtx ν) (state : σ) : List ℚ × ℚ :=
  if g.statePlayer state = 1 then ctx.predict (g.to_neural state)
  else ctx.predictOpp (g.to_neural state)

/-- Lines 112-116 of mcts.py: the upper-confidence score of action `a` at
node `s` (`math.sqrt` is the context's `sqrtQ`). -/
def ucbScore (ctx : MCTSCtx ν) (t : Tables) (s : String) (ps : List ℚ) (a : Nat) : ℚ :=
  match lookupKV t.Qsa (s, (a : Int)) with
  | some q =>
      q + ctx.cpuct * ps.getD a 0 * ctx.sqrtQ ((getNs t s : ℚ)) / (1 + (getNsa t s (a : Int) : ℚ))
  | none => ctx.cpuct * ps.getD a 0 * ctx.sqrtQ ((getNs t s : ℚ) + EPS)

/-- Lines 106-120 of mcts.py: the selection loop over action indices.
In the accumulator, `none` models the initial negative-infinity best score,
which every finite score beats. -/
def selectLoop (ctx : MCTSCtx ν) (t : Tables) (s : String) (valids ps : List ℚ) :
    List Nat → Option ℚ × Int → Option ℚ × Int
  | [], best => best
  | a :: rest, best =>
    if valids.getD a 0 ≠ 0 then
      let u := ucbScore ctx t s ps a
      match best.1 with
      | none => selectLoop ctx t s valids ps rest (some u, (a : Int))
      | some b =>
        if b < u then selectLoop ctx t s valids ps rest (some u, (a : Int))
        else selectLoop ctx t s valids ps rest best
    else
      selectLoop ctx t s valids ps rest best

/-- Lines 106-122 of mcts.py: `cur_best = -float('inf'); best_act = -1` and the
maximising scan; `none` in the accumulator models `-float('inf')`. -/
def selectAction (g : GameE σ ν) (ctx : MCTSCtx ν) (t : Tables) (s : String)
    (valids ps : List ℚ) : Int :=
  (selectLoop ctx t s valids ps (List.range g.actionSize) (none, -1)).2

/-- Lines 132-140 of mcts.py: the backup of value `v` through edge `(s, a)`,
including `self.Ns[s] += 1`. -/
def backupEdge (s : String) (a : Int) (v : ℚ) (t : Tables) : Tables :=
  let t1 :=
    match lookupKV t.Qsa (s, a) with
    | some q =>
        let n := getNsa t s a
        { t with
            Qsa := insertKV t.Qsa (s, a) (((n : ℚ) * q + v) / ((n : ℚ) + 1)),
            Nsa := insertKV t.Nsa (s, a) (n + 1) }
    | none =>
        { t with
            Qsa := insertKV t.Qsa (s, a) v,
            Nsa := insertKV t.Nsa (s, a) 1 }
  { t1 with Ns := insertKV t1.Ns s (getNs t1 s + 1) }

/-- Lines 80-103 of mcts.py: leaf expansion.  The oracle policy is masked by
the legal-action vector and renormalized; if the masked sum is not positive,
the legality mask is added before renormalizing and an error-log event is
emitted.  Returns the oracle value and the updated tables. -/
def expandLeaf (g : GameE σ ν) (ctx : MCTSCtx ν) (state : σ) (t : Tables) : ℚ × Tables :=
  let pv := policy0 g ctx state
  let valids := g.get_valid_actions state (resolvedPlayer g state)
  let masked := List.zipWith (fun p w => p * w) pv.1 valids
  let sumPs := masked.sum
  if 0 < sumPs then
    (pv.2,
      { t with
          Ps := insertKV t.Ps (keyOf g state) (masked.map (fun x => x / sumPs)),
          Ns := insertKV t.Ns (keyOf g state) 0 })
  else
    let added := List.zipWith (fun x w => x + w) masked valids
    (pv.2,
      { t with
          Ps := insertKV t.Ps (keyOf g state) (added.map (fun x => x / added.sum)),
          Ns := insertKV t.Ns (keyOf g state) 0,
          log := LogEvent.allValidMovesMasked :: t.log })

/-- Lines 123-126 of mcts.py: the child state handed to the recursive call
(transition by the resolved player, then optional canonicalization). -/
def childState (g : GameE σ ν) (state : σ) (a : Int) : σ :=
  let next_s := g.get_next_state state (resolvedPlayer g state) a
  let next_player := g.statePlayer next_s
  if g.player_agnostic_state then g.get_player_agnostic_state next_s next_player else next_s

/-- `MCTS.search` (lines 51-141 of mcts.py), with explicit fuel.
`none` means the fuel bound was hit (the source has no bound). -/
def search (g : GameE σ ν) (ctx : MCTSCtx ν) : Nat → σ → Tables → Option (ℚ × Tables)
  | 0, _, _ => none
  | fuel + 1, state, t =>
    let s := keyOf g state
    let current_player := g.statePlayer state
    let player := resolvedPlayer g state
    let v := g.get_game_ended state player
    if v ≠ 0 then
      some (if g.alternate_turn then -v else v, t)
    else
      match lookupKV t.Ps s with
      | none =>
        let r := expandLeaf g ctx state t
        some (if g.alternate_turn then -r.1 else r.1, r.2)
      | some ps =>
        let valids := g.get_valid_actions state player
        let a := selectAction g ctx t s valids ps
        let next_s := g.get_next_state state player a
        let next_player := g.statePlayer next_s
        let next_s2 :=
          if g.player_agnostic_state then g.get_player_agnostic_state next_s next_player
          else next_s
        match search g ctx fuel next_s2 t with
        | none => none
        | some (v0, t1) =>
          let v1 :=
            if g.alternate_turn = false ∧ current_player ≠ next_player then -v0 else v0
          some (if g.alternate_turn then -v1 else v1, backupEdge s a v1 t1)

/-- Failure modes of `get_action_prob`: `fuelOut` is the artificial fuel
bound of the embedding; `divisionByZero` models Python's
`ZeroDivisionError` from `x / counts_sum`; `valueError` models
`np.max` on an empty sequence. -/
inductive MCTSErr
  | fuelOut
  | divisionByZero
  | valueError
  deriving DecidableEq, Repr

/-- Lines 33-34 of mcts.py: `for i in range(self.args.numMCTSSims): self.search(state)`,
threading the mutated statistics tables. -/
def simsLoop (g : GameE σ ν) (ctx : MCTSCtx ν) (fuel : Nat) : Nat → σ → Tables → Option Tables
  | 0, _, t => some t
  | n + 1, state, t =>
    match search g ctx fuel state t with
    | none => none
    | some (_, t1) => simsLoop g ctx fuel n state t1

/-- Line 37 of mcts.py: the root visit counts
`[Nsa[(s, a)] if (s, a) in Nsa else 0 for a in range(action_size)]`. -/
def rootCounts (g : GameE σ ν) (t : Tables) (state : σ) : List Nat :=
  (List.range g.actionSize).map (fun (a : Nat) => getNsa t (keyOf g state) (a : Int))

/-- `np.max` over a list of natural-number counts. -/
def natMax (l : List Nat) : Nat := l.foldr Nat.max 0

/-- `MCTS.get_action_prob` (lines 24-49 of mcts.py).  The temperature-0
tie break `np.random.choice(bestAs)` is the context's `chooser`; the float
power `x ** (1. / temp)` is the context's `fpow`. -/
def get_action_prob (g : GameE σ ν) (ctx : MCTSCtx ν) (fuel numMCTSSims : Nat)
    (state : σ) (temp : ℚ) (t : Tables) : Except MCTSErr (List ℚ × Tables) :=
  match simsLoop g ctx fuel numMCTSSims state t with
  | none => .error .fuelOut
  | some t1 =>
    let counts := rootCounts g t1 state
    if temp = 0 then
      if counts.isEmpty then .error .valueError
      else
        let bestAs := (List.range counts.length).filter (fun a => counts.getD a 0 = natMax counts)
        let bestA := ctx.chooser bestAs
        .ok ((List.replicate counts.length (0 : ℚ)).set bestA 1, t1)
    else
      let counts2 := counts.map (fun (x : Nat) => ctx.fpow (x : ℚ) (1 / temp))
      let counts_sum := counts2.sum
      if counts_sum = 0 then
        if counts2.isEmpty then .ok ([], t1) else .error .divisionByZero
      else
        .ok (counts2.map (fun x => x / counts_sum), t1)

/-- Line 348 of blackjack.py: `return [(x[0], x[2], x[1], x[1]) for x in trainExamples]`,
where each recorded `x` is `[state0, current_player, pi]`. -/
def finalizeExamples (ex : List (ν × Int × List ℚ)) : List (ν × List ℚ × Int × Int) :=
  ex.map (fun x => (x.1, x.2.2, x.2.1, x.2.1))

/-- The self-play loop body of `BlackJackAgent.execute_episode`
(lines 334-348 of blackjack.py), with explicit fuel.  `sampler` models
`np.random.choice(len(pi), p=pi)` (indexed by the step counter). -/
def executeEpisodeGo (g : GameE σ ν) (ctx : MCTSCtx ν) (sampler : Nat → List ℚ → Nat)
    (tempThreshold fuel numMCTSSims : Nat) :
    Nat → Nat → σ → Tables → List (ν × Int × List ℚ) →
      Except MCTSErr (List (ν × List ℚ × Int × Int) × Tables)
  | 0, _, _, _, _ => .error .fuelOut
  | efuel + 1, step, state, t, acc =>
    let current_player := g.statePlayer state
    let step1 := step + 1
    let temp : ℚ := if step1 < tempThreshold then 1 else 0
    match get_action_prob g ctx fuel numMCTSSims state temp t with
    | .error e => .error e
    | .ok (pi, t1) =>
      let acc1 := acc ++ [(g.to_neural state, current_player, pi)]
      let action := sampler step1 pi
      let state1 := g.get_next_state state current_player (action : Int)
      let r := g.stateReward state1
      if r ≠ 0 then .ok (finalizeExamples acc1, t1)
      else executeEpisodeGo g ctx sampler tempThreshold fuel numMCTSSims efuel step1 state1 t1 acc1

/-- `BlackJackAgent.execute_episode` (lines 313-348 of blackjack.py),
starting from the given initial state with step counter 0, an empty example
list, and the fresh statistics tables of a per-episode MCTS instance. -/
def execute_episode (g : GameE σ ν) (ctx : MCTSCtx ν) (sampler : Nat → List ℚ → Nat)
    (tempThreshold fuel numMCTSSims efuel : Nat) (initState : σ) :
    Except MCTSErr (List (ν × List ℚ × Int × Int) × Tables) :=
  executeEpisodeGo g ctx sampler tempThreshold fuel numMCTSSims efuel 0 initState emptyTables []

/-- Line 414 of blackjack.py: the arena gate.  `true` means the new model
pair is accepted (`else` branch of
`if pwins + nwins == 0 or float(nwins) / (pwins + nwins) < args.updateThreshold`). -/
def gate_accepts (nwins pwins : Nat) (updateThreshold : ℚ) : Bool :=
  if pwins + nwins = 0 ∨ (nwins : ℚ) / ((pwins + nwins : Nat) : ℚ) < updateThreshold then
    false
  else
    true

/-- Lines 414-421 of blackjack.py: on rejection both networks reload the
pre-fit `temp` snapshots; on acceptance the current pair persists.
`current` is the freshly fitted `(nnet, dealer_nnet)` pair and `snapshot`
the pre-fit pair. -/
def gateModels {M : Type} (nwins pwins : Nat) (updateThreshold : ℚ)
    (current snapshot : M × M) : M × M :=
  if gate_accepts nwins pwins updateThreshold then current else snapshot

/-- Folding the backup of lines 132-140 of mcts.py over a list of
per-visit child values for a fixed edge `(s, a)`. -/
def backupSeq (s : String) (a : Int) (vs : List ℚ) (t : Tables) : Tables :=
  vs.foldl (fun t v => backupEdge s a v t) t

/-- Well-formedness of a prior-table entry: nonnegative entries, unit sum,
and support inside the legal actions of the expanded state. -/
def PsEntryOK (g : GameE σ ν) (s : String) (ps : List ℚ) : Prop :=
  (∀ x ∈ ps, 0 ≤ x) ∧ ps.sum = 1 ∧
    ∃ st, keyOf g st = s ∧
      ∀ a : Nat, a < g.actionSize →
        (g.get_valid_actions st (resolvedPlayer g st)).getD a 0 = 0 → ps.getD a 0 = 0

/-- The prior-table invariant over the whole statistics record. -/
def PsInv (g : GameE σ ν) (t : Tables) : Prop :=
  ∀ s ps, lookupKV t.Ps s = some ps → PsEntryOK g s ps

/-- The `Qsa`/`Nsa` tables have the same key set (true of every reachable
table: lines 132-138 of mcts.py always write both). -/
def QNSync (t : Tables) : Prop :=
  ∀ k : String × Int, (lookupKV t.Qsa k).isSome ↔ (lookupKV t.Nsa k).isSome

/-- The oracle contract assumed of `nnet.predict`: an action-probability
vector (nonnegative entries) of length `action_size`. -/
structure OracleOK (g : GameE σ ν) (ctx : MCTSCtx ν) : Prop where
  nonneg : ∀ x : ν, (∀ q ∈ (ctx.predict x).1, 0 ≤ q) ∧ ∀ q ∈ (ctx.predictOpp x).1, 0 ≤ q
  lenEq : ∀ x : ν, (ctx.predict x).1.length = g.actionSize ∧
    (ctx.predictOpp x).1.length = g.actionSize

/-- The game contract assumed of `get_valid_actions`: a 0/1 vector of
length `action_size` with at least one legal action at every
non-terminal state. -/
structure ValidsOK (g : GameE σ ν) : Prop where
  entries : ∀ st p, ∀ q ∈ g.get_valid_actions st p, q = 0 ∨ q = 1
  lenEq : ∀ st p, (g.get_valid_actions st p).length = g.actionSize
  nonempty : ∀ st, g.get_game_ended st (resolvedPlayer g st) = 0 →
    ∃ a, a < g.actionSize ∧ (g.get_valid_actions st (resolvedPlayer g st)).getD a 0 ≠ 0

/-- A rank on node keys that strictly decreases across every transition
out of a non-terminal state: descents never revisit a key. -/
def RankOK (g : GameE σ ν) (mu : String → Nat) : Prop :=
  ∀ st a, g.get_game_ended st (resolvedPlayer g st) = 0 →
    mu (keyOf g (childState g st a)) < mu (keyOf g st)

/-- Sum of the edge visit counts `N[s, a]` over `a in range(action_size)`. -/
def NsaSum (g : GameE σ ν) (t : Tables) (s : String) : Nat :=
  ((List.range g.actionSize).map (fun (a : Nat) => getNsa t s (a : Int))).sum

/-- Toy game states used for concrete runs: a non-terminal root and two
terminal children. -/
inductive TS
  | root
  | winS
  | loseS
  deriving DecidableEq, Repr

/-- A deterministic two-action toy game: the root belongs to player 1 and
both actions end the game (action 0 wins, others lose).  This instantiates
the `Game` contract of game.py. -/
def gEx : GameE TS Unit where
  actionSize := 2
  alternate_turn := false
  player_agnostic_state := false
  state_to_string := fun st => match st with | .root => "r" | .winS => "w" | .loseS => "l"
  statePlayer := fun _ => 1
  stateReward := fun st => match st with | .root => 0 | .winS => 1 | .loseS => -1
  get_game_ended := fun st _ => match st with | .root => 0 | .winS => 1 | .loseS => -1
  get_valid_actions := fun _ _ => [1, 1]
  get_next_state := fun _ _ a => if a = 0 then .winS else .loseS
  get_player_agnostic_state := fun st _ => st
  to_neural := fun _ => ()

/-- A toy oracle context: uniform priors, zero values, identity stand-ins
for the float operations, and a head-taking tie-break choice. -/
def ctxEx : MCTSCtx Unit where
  cpuct := 1
  sqrtQ := fun x => x
  fpow := fun b _ => b
  predict := fun _ => ([1/2, 1/2], 0)
  predictOpp := fun _ => ([1/2, 1/2], 0)
  chooser := fun l => l.headD 0

/-- A degenerate toy oracle that assigns zero probability to every action,
to drive the uniform-fallback path of leaf expansion. -/
def ctxZero : MCTSCtx Unit where
  cpuct := 1
  sqrtQ := fun x => x
  fpow := fun b _ => b
  predict := fun _ => ([0, 0], 0)
  predictOpp := fun _ => ([0, 0], 0)
  chooser := fun l => l.headD 0

/-- A key rank witnessing `RankOK` for the toy game: the root key ranks
above the two terminal keys. -/
def muEx : String → Nat := fun s => if s = "r" then 1 else 0

/-- A toy game whose legal-action vector is all zeros everywhere, while the
root is non-terminal: a malformed game contract used to probe the search's
behaviour. -/
def gNV : GameE TS Unit where
  actionSize := 2
  alternate_turn := false
  player_agnostic_state := false
  state_to_string := fun st => match st with | .root => "r" | .winS => "w" | .loseS => "l"
  statePlayer := fun _ => 1
  stateReward := fun st => match st with | .root => 0 | .winS => 1 | .loseS => -1
  get_game_ended := fun st _ => match st with | .root => 0 | .winS => 1 | .loseS => -1
  get_valid_actions := fun _ _ => [0, 0]
  get_next_state := fun _ _ _ => .winS
  get_player_agnostic_state := fun st _ => st
  to_neural := fun _ => ()

/-- A table in which the root of `gNV` is already expanded (as if by a
previous leaf visit), so that a further search call takes the selection
branch. -/
def tNV : Tables :=
  { Qsa := [], Nsa := [], Ns := [("r", 0)], Ps := [("r", [1/2, 1/2])], log := [] }

/-- The episode sampler used in concrete self-play runs: always draws
action 1 (the losing move of `gEx`). -/
def samplerEx : Nat → List ℚ → Nat := fun _ _ => 1

/-- The tables produced by one expansion of the root of `gEx` under `ctxEx`. -/
def tExpand : Tables :=
  { Qsa := [], Nsa := [], Ns := [("r", 0)], Ps := [("r", [1/2, 1/2])], log := [] }

/-- The tables produced by two simulations from the root of `gEx` under `ctxEx`. -/
def tTwoSims : Tables :=
  { Qsa := [(("r", 0), 1)], Nsa := [(("r", 0), 1)], Ns := [("r", 1), ("r", 0)],
    Ps := [("r", [1/2, 1/2])], log := [] }

section Lemmas

variable {κ α : Type} [DecidableEq κ]

@[simp]
theorem lookupKV_nil (k : κ) : lookupKV ([] : List (κ × α)) k = none := rfl

theorem lookupKV_cons (k k' : κ) (v : α) (l : List (κ × α)) :
    lookupKV ((k, v) :: l) k' = if k' = k then some v else lookupKV l k' := rfl

@[simp]
theorem lookupKV_insert_self (l : List (κ × α)) (k : κ) (v : α) :
    lookupKV (insertKV l k v) k = some v := by
  simp [insertKV, lookupKV_cons]

theorem lookupKV_insert_ne (l : List (κ × α)) (k k' : κ) (v : α) (h : k' ≠ k) :
    lookupKV (insertKV l k v) k' = lookupKV l k' := by
  simp [insertKV, lookupKV_cons, h]

theorem sum_map_div (l : List ℚ) (c : ℚ) :
    (l.map (fun x => x / c)).sum = l.sum / c := by
  induction l with
  | nil => simp
  | cons a tl ih => simp [ih, add_div]

theorem sum_nonneg_list (l : List ℚ) (h : ∀ x ∈ l, 0 ≤ x) : 0 ≤ l.sum := by
  induction l with
  | nil => simp
  | cons a tl ih =>
    have ha := h a (by simp)
    have ht := ih (fun x hx => h x (by simp [hx]))
    simpa using add_nonneg ha ht

theorem all_zero_of_sum_nonpos (l : List ℚ) (h : ∀ x ∈ l, 0 ≤ x) (hs : l.sum ≤ 0) :
    ∀ x ∈ l, x = 0 := by
  induction l with
  | nil => simp
  | cons a tl ih =>
    have ha := h a (by simp)
    have ht : ∀ x ∈ tl, 0 ≤ x := fun x hx => h x (by simp [hx])
    have hts := sum_nonneg_list tl ht
    have hsum : a + tl.sum ≤ 0 := by simpa using hs
    have ha0 : a = 0 := le_antisymm (by linarith) ha
    intro x hx
    rcases List.mem_cons.mp hx with h1 | h1
    · simp [h1, ha0]
    · exact ih ht (by linarith [ha0 ▸ hsum]) x h1

theorem zipWith_add_eq_right (l1 l2 : List ℚ) (hlen : l1.length = l2.length)
    (h : ∀ x ∈ l1, x = 0) : List.zipWith (fun x w => x + w) l1 l2 = l2 := by
  induction l1 generalizing l2 with
  | nil => cases l2 with
    | nil => rfl
    | cons b tl2 => simp at hlen
  | cons a tl ih =>
    cases l2 with
    | nil => simp at hlen
    | cons b tl2 =>
      have ha : a = 0 := h a (by simp)
      have : List.zipWith (fun x w => x + w) tl tl2 = tl2 :=
        ih tl2 (by simpa using hlen) (fun x hx => h x (by simp [hx]))
      simp [ha, this]

theorem getD_map_zero (l : List ℚ) (f : ℚ → ℚ) (hf : f 0 = 0) (a : Nat) :
    (l.map f).getD a 0 = f (l.getD a 0) := by
  induction l generalizing a with
  | nil => simp [hf]
  | cons b tl ih =>
    cases a with
    | zero => simp
    | succ a2 => simpa using ih a2

theorem getD_zipWith (f : ℚ → ℚ → ℚ) (l1 l2 : List ℚ) (a : Nat)
    (h1 : a < l1.length) (h2 : a < l2.length) :
    (List.zipWith f l1 l2).getD a 0 = f (l1.getD a 0) (l2.getD a 0) := by
  induction l1 generalizing l2 a with
  | nil => simp at h1
  | cons b tl ih =>
    cases l2 with
    | nil => simp at h2
    | cons c tl2 =>
      cases a with
      | zero => simp
      | succ a2 =>
        have := ih tl2 a2 (by simpa using h1) (by simpa using h2)
        simpa using this

theorem mem_zipWith_mul (l1 l2 : List ℚ) (x : ℚ)
    (hx : x ∈ List.zipWith (fun p w => p * w) l1 l2) :
    ∃ p q, p ∈ l1 ∧ q ∈ l2 ∧ x = p * q := by
  induction l1 generalizing l2 with
  | nil => simp at hx
  | cons a tl ih =>
    cases l2 with
    | nil => simp at hx
    | cons b tl2 =>
      rcases List.mem_cons.mp hx with h1 | h1
      · exact ⟨a, b, by simp, by simp, h1⟩
      · rcases ih tl2 h1 with ⟨p, q, hp, hq, he⟩
        exact ⟨p, q, by simp [hp], by simp [hq], he⟩

theorem sum_replicate_set (n a : Nat) (h : a < n) :
    ((List.replicate n (0 : ℚ)).set a 1).sum = 1 := by
  induction n generalizing a with
  | zero => omega
  | succ n2 ih =>
    cases a with
    | zero => simp [List.replicate_succ]
    | succ a2 =>
      have := ih a2 (by omega)
      simp [List.replicate_succ, this]

theorem natMax_mem (l : List Nat) (h : l ≠ []) : natMax l ∈ l := by
  induction l with
  | nil => simp at h
  | cons a tl ih =>
    cases tl with
    | nil => simp [natMax]
    | cons b tl2 =>
      rcases Nat.le_total (natMax (b :: tl2)) a with h1 | h1
      · have : natMax (a :: b :: tl2) = a := by
          simp [natMax] at h1 ⊢
          omega
        simp [this]
      · have : natMax (a :: b :: tl2) = natMax (b :: tl2) := by
          simp [natMax] at h1 ⊢
          omega
        have hm := ih (by simp)
        rw [this]
        exact List.mem_cons_of_mem a hm

theorem le_natMax (l : List Nat) (x : Nat) (hx : x ∈ l) : x ≤ natMax l := by
  induction l with
  | nil => simp at hx
  | cons a tl ih =>
    rcases List.mem_cons.mp hx with h1 | h1
    · subst h1
      simp only [natMax, List.foldr_cons]
      exact Nat.le_max_left _ _
    · have := ih h1
      simp only [natMax, List.foldr_cons] at this ⊢
      exact le_trans this (Nat.le_max_right _ _)

theorem single_le_sum_rat (l : List ℚ) (h : ∀ y ∈ l, 0 ≤ y) (x : ℚ) (hx : x ∈ l) :
    x ≤ l.sum := by
  induction l with
  | nil => simp at hx
  | cons a tl ih =>
    have ht : ∀ y ∈ tl, 0 ≤ y := fun y hy => h y (by simp [hy])
    rcases List.mem_cons.mp hx with h1 | h1
    · have := sum_nonneg_list tl ht
      simp [h1]
      linarith
    · have := ih ht h1
      have ha := h a (by simp)
      simp
      linarith

end Lemmas

section TableLemmas

variable {σ ν : Type}

@[simp]
theorem backupEdge_Ps (s : String) (a : Int) (v : ℚ) (t : Tables) :
    (backupEdge s a v t).Ps = t.Ps := by
  unfold backupEdge
  cases h : lookupKV t.Qsa (s, a) <;> simp

@[simp]
theorem backupEdge_log (s : String) (a : Int) (v : ℚ) (t : Tables) :
    (backupEdge s a v t).log = t.log := by
  unfold backupEdge
  cases h : lookupKV t.Qsa (s, a) <;> simp

theorem backupEdge_Ns_self (s : String) (a : Int) (v : ℚ) (t : Tables) :
    getNs (backupEdge s a v t) s = getNs t s + 1 := by
  unfold backupEdge
  cases h : lookupKV t.Qsa (s, a) <;> simp [getNs]

theorem backupEdge_Nsa_self (s : String) (a : Int) (v : ℚ) (t : Tables)
    (hsync : (lookupKV t.Qsa (s, a)).isSome ↔ (lookupKV t.Nsa (s, a)).isSome) :
    getNsa (backupEdge s a v t) s a = getNsa t s a + 1 := by
  unfold backupEdge
  cases h : lookupKV t.Qsa (s, a) with
  | none =>
    have : lookupKV t.Nsa (s, a) = none := by
      cases h2 : lookupKV t.Nsa (s, a) with
      | none => rfl
      | some n => simp [h, h2] at hsync
    simp [getNsa, this]
  | some q => simp [getNsa]

theorem backupEdge_Nsa_other (s : String) (a : Int) (v : ℚ) (t : Tables)
    (k : String × Int) (hk : k ≠ (s, a)) :
    lookupKV (backupEdge s a v t).Nsa k = lookupKV t.Nsa k := by
  unfold backupEdge
  cases h : lookupKV t.Qsa (s, a) <;> simp [lookupKV_insert_ne _ _ _ _ hk]

theorem expandLeaf_Qsa (g : GameE σ ν) (ctx : MCTSCtx ν) (st : σ) (t : Tables) :
    (expandLeaf g ctx st t).2.Qsa = t.Qsa := by
  simp only [expandLeaf]
  split <;> simp

theorem expandLeaf_Nsa (g : GameE σ ν) (ctx : MCTSCtx ν) (st : σ) (t : Tables) :
    (expandLeaf g ctx st t).2.Nsa = t.Nsa := by
  simp only [expandLeaf]
  split <;> simp

theorem expandLeaf_Ps_shape (g : GameE σ ν) (ctx : MCTSCtx ν) (st : σ) (t : Tables) :
    ∃ ps1, (expandLeaf g ctx st t).2.Ps = insertKV t.Ps (keyOf g st) ps1 := by
  simp only [expandLeaf]
  split
  · exact ⟨_, rfl⟩
  · exact ⟨_, rfl⟩

end TableLemmas

section SelectLemmas

variable {σ ν : Type}

theorem selectLoop_mem_of_start (ctx : MCTSCtx ν) (t : Tables) (s : String)
    (valids ps : List ℚ) :
    ∀ (l : List Nat) (b : Option ℚ × Int),
      (selectLoop ctx t s valids ps l b).2 = b.2 ∨
        ∃ a ∈ l, (selectLoop ctx t s valids ps l b).2 = (a : Int) := by
  intro l
  induction l with
  | nil => intro b; left; rfl
  | cons a rest ih =>
    intro b
    simp only [selectLoop]
    by_cases hv : valids.getD a 0 ≠ 0
    · rw [if_pos hv]
      cases hb : b.1 with
      | none =>
        rcases ih (some (ucbScore ctx t s ps a), (a : Int)) with h1 | ⟨a2, ha2, h2⟩
        · right; exact ⟨a, by simp, h1⟩
        · right; exact ⟨a2, by simp [ha2], h2⟩
      | some q =>
        dsimp only
        by_cases hlt : q < ucbScore ctx t s ps a
        · rw [if_pos hlt]
          rcases ih (some (ucbScore ctx t s ps a), (a : Int)) with h1 | ⟨a2, ha2, h2⟩
          · right; exact ⟨a, by simp, h1⟩
          · right; exact ⟨a2, by simp [ha2], h2⟩
        · rw [if_neg hlt]
          rcases ih b with h1 | ⟨a2, ha2, h2⟩
          · left; exact h1
          · right; exact ⟨a2, by simp [ha2], h2⟩
    · rw [if_neg hv]
      rcases ih b with h1 | ⟨a2, ha2, h2⟩
      · left; exact h1
      · right; exact ⟨a2, by simp [ha2], h2⟩

theorem selectLoop_progress (ctx : MCTSCtx ν) (t : Tables) (s : String)
    (valids ps : List ℚ) :
    ∀ (l : List Nat) (act : Int),
      (∃ a ∈ l, valids.getD a 0 ≠ 0) →
      ∃ a ∈ l, (selectLoop ctx t s valids ps l (none, act)).2 = (a : Int) := by
  intro l
  induction l with
  | nil => intro act h; simp at h
  | cons a rest ih =>
    intro act h
    simp only [selectLoop]
    by_cases hv : valids.getD a 0 ≠ 0
    · rw [if_pos hv]
      rcases selectLoop_mem_of_start ctx t s valids ps rest
          (some (ucbScore ctx t s ps a), (a : Int)) with h1 | ⟨a2, ha2, h2⟩
      · exact ⟨a, by simp, h1⟩
      · exact ⟨a2, by simp [ha2], h2⟩
    · rw [if_neg hv]
      have hrest : ∃ a2 ∈ rest, valids.getD a2 0 ≠ 0 := by
        rcases h with ⟨a2, ha2, hne⟩
        rcases List.mem_cons.mp ha2 with he | hm
        · exact absurd (he ▸ hne) hv
        · exact ⟨a2, hm, hne⟩
      rcases ih act hrest with ⟨a2, ha2, h2⟩
      exact ⟨a2, by simp [ha2], h2⟩

theorem selectAction_mem (g : GameE σ ν) (ctx : MCTSCtx ν) (t : Tables) (s : String)
    (valids ps : List ℚ)
    (h : ∃ a, a < g.actionSize ∧ valids.getD a 0 ≠ 0) :
    ∃ a, a < g.actionSize ∧ selectAction g ctx t s valids ps = (a : Int) := by
  rcases h with ⟨a, ha, hv⟩
  rcases selectLoop_progress ctx t s valids ps (List.range g.actionSize) (-1)
      ⟨a, List.mem_range.mpr ha, hv⟩ with ⟨a2, ha2, h2⟩
  exact ⟨a2, List.mem_range.mp ha2, h2⟩

theorem selectLoop_all_invalid (ctx : MCTSCtx ν) (t : Tables) (s : String)
    (valids ps : List ℚ) (hz : ∀ a : Nat, valids.getD a 0 = 0) :
    ∀ (l : List Nat) (b : Option ℚ × Int), selectLoop ctx t s valids ps l b = b := by
  intro l
  induction l with
  | nil => intro b; rfl
  | cons a rest ih =>
    intro b
    simp only [selectLoop]
    rw [if_neg (not_not_intro (hz a))]
    exact ih b

theorem selectAction_all_invalid (g : GameE σ ν) (ctx : MCTSCtx ν) (t : Tables) (s : String)
    (valids ps : List ℚ) (hz : ∀ a : Nat, valids.getD a 0 = 0) :
    selectAction g ctx t s valids ps = -1 := by
  unfold selectAction
  rw [selectLoop_all_invalid ctx t s valids ps hz]

end SelectLemmas

section SearchCaseLemmas

variable {σ ν : Type}

theorem getD_mem_of_lt (l : List ℚ) (a : Nat) (h : a < l.length) : l.getD a 0 ∈ l := by
  induction l generalizing a with
  | nil => simp at h
  | cons b tl ih =>
    cases a with
    | zero => simp
    | succ a2 =>
      have := ih a2 (by simpa using h)
      simpa using Or.inr this

theorem policy0_nonneg (g : GameE σ ν) (ctx : MCTSCtx ν) (hO : OracleOK g ctx) (st : σ) :
    ∀ q ∈ (policy0 g ctx st).1, 0 ≤ q := by
  unfold policy0
  split
  · exact (hO.nonneg (g.to_neural st)).1
  · exact (hO.nonneg (g.to_neural st)).2

theorem policy0_len (g : GameE σ ν) (ctx : MCTSCtx ν) (hO : OracleOK g ctx) (st : σ) :
    (policy0 g ctx st).1.length = g.actionSize := by
  unfold policy0
  split
  · exact (hO.lenEq (g.to_neural st)).1
  · exact (hO.lenEq (g.to_neural st)).2

theorem search_zero (g : GameE σ ν) (ctx : MCTSCtx ν) (st : σ) (t : Tables) :
    search g ctx 0 st t = none := rfl

theorem search_terminal (g : GameE σ ν) (ctx : MCTSCtx ν) (st : σ) (fuel : Nat) (t : Tables)
    (h : g.get_game_ended st (resolvedPlayer g st) ≠ 0) :
    search g ctx (fuel + 1) st t =
      some (if g.alternate_turn then -(g.get_game_ended st (resolvedPlayer g st))
            else g.get_game_ended st (resolvedPlayer g st), t) := by
  simp only [search]
  rw [if_pos h]

theorem search_leaf (g : GameE σ ν) (ctx : MCTSCtx ν) (st : σ) (fuel : Nat) (t : Tables)
    (hnt : g.get_game_ended st (resolvedPlayer g st) = 0)
    (hps : lookupKV t.Ps (keyOf g st) = none) :
    search g ctx (fuel + 1) st t =
      some (if g.alternate_turn then -(expandLeaf g ctx st t).1 else (expandLeaf g ctx st t).1,
        (expandLeaf g ctx st t).2) := by
  simp only [search]
  rw [if_neg (not_not_intro hnt), hps]

theorem search_select (g : GameE σ ν) (ctx : MCTSCtx ν) (st : σ) (fuel : Nat) (t : Tables)
    (ps : List ℚ)
    (hnt : g.get_game_ended st (resolvedPlayer g st) = 0)
    (hps : lookupKV t.Ps (keyOf g st) = some ps) :
    search g ctx (fuel + 1) st t =
      (match search g ctx fuel
          (childState g st
            (selectAction g ctx t (keyOf g st)
              (g.get_valid_actions st (resolvedPlayer g st)) ps)) t with
      | none => none
      | some (v0, t1) =>
        let a := selectAction g ctx t (keyOf g st)
          (g.get_valid_actions st (resolvedPlayer g st)) ps
        let v1 :=
          if g.alternate_turn = false ∧
              g.statePlayer st ≠
                g.statePlayer (g.get_next_state st (resolvedPlayer g st) a) then -v0
          else v0
        some (if g.alternate_turn then -v1 else v1, backupEdge (keyOf g st) a v1 t1)) := by
  simp only [search]
  rw [if_neg (not_not_intro hnt), hps]
  rfl

end SearchCaseLemmas

section SearchInductions

variable {σ ν : Type}

/-- A prior-table entry, once written, is never changed by further search
calls (write-once semantics of `Ps[s]`). -/
theorem search_Ps_mono (g : GameE σ ν) (ctx : MCTSCtx ν) :
    ∀ (fuel : Nat) (st : σ) (t : Tables) (v : ℚ) (t1 : Tables),
      search g ctx fuel st t = some (v, t1) →
      ∀ s2 ps2, lookupKV t.Ps s2 = some ps2 → lookupKV t1.Ps s2 = some ps2 := by
  intro fuel
  induction fuel with
  | zero => intro st t v t1 h; simp [search_zero] at h
  | succ fuel ih =>
    intro st t v t1 h s2 ps2 hs2
    by_cases hterm : g.get_game_ended st (resolvedPlayer g st) ≠ 0
    · rw [search_terminal g ctx st fuel t hterm] at h
      injection h with h1
      injection h1 with h2 h3
      rw [← h3]
      exact hs2
    · have hnt : g.get_game_ended st (resolvedPlayer g st) = 0 := by
        by_contra hc
        exact hterm hc
      cases hps : lookupKV t.Ps (keyOf g st) with
      | none =>
        rw [search_leaf g ctx st fuel t hnt hps] at h
        injection h with h1
        injection h1 with h2 h3
        rw [← h3]
        rcases expandLeaf_Ps_shape g ctx st t with ⟨ps1, hshape⟩
        rw [hshape]
        have hne : s2 ≠ keyOf g st := by
          intro he
          rw [he, hps] at hs2
          exact Option.noConfusion hs2
        rw [lookupKV_insert_ne _ _ _ _ hne]
        exact hs2
      | some ps =>
        rw [search_select g ctx st fuel t ps hnt hps] at h
        cases hrec : search g ctx fuel
            (childState g st
              (selectAction g ctx t (keyOf g st)
                (g.get_valid_actions st (resolvedPlayer g st)) ps)) t with
        | none => rw [hrec] at h; exact Option.noConfusion h
        | some p =>
          rcases p with ⟨v0, t2⟩
          rw [hrec] at h
          dsimp only at h
          injection h with h1
          injection h1 with h2 h3
          rw [← h3]
          rw [backupEdge_Ps]
          exact ih _ t v0 t2 hrec s2 ps2 hs2

/-- After a successful search call on a non-terminal state, the state's key
is present in the prior table. -/
theorem search_expands (g : GameE σ ν) (ctx : MCTSCtx ν)
    (fuel : Nat) (st : σ) (t : Tables) (v : ℚ) (t1 : Tables)
    (h : search g ctx (fuel + 1) st t = some (v, t1))
    (hnt : g.get_game_ended st (resolvedPlayer g st) = 0) :
    (lookupKV t1.Ps (keyOf g st)).isSome := by
  cases hps : lookupKV t.Ps (keyOf g st) with
  | none =>
    rw [search_leaf g ctx st fuel t hnt hps] at h
    injection h with h1
    injection h1 with h2 h3
    rw [← h3]
    rcases expandLeaf_Ps_shape g ctx st t with ⟨ps1, hshape⟩
    rw [hshape, lookupKV_insert_self]
    rfl
  | some ps =>
    have := search_Ps_mono g ctx (fuel + 1) st t v t1 h (keyOf g st) ps hps
    rw [this]
    rfl

end SearchInductions

section PsInvLemmas

variable {σ ν : Type}

theorem masked_nonneg (g : GameE σ ν) (ctx : MCTSCtx ν) (hO : OracleOK g ctx)
    (hV : ValidsOK g) (st : σ) (p : Int) :
    ∀ x ∈ List.zipWith (fun p w => p * w) (policy0 g ctx st).1 (g.get_valid_actions st p),
      0 ≤ x := by
  intro x hx
  rcases mem_zipWith_mul _ _ x hx with ⟨a, b, ha, hb, he⟩
  have h1 := policy0_nonneg g ctx hO st a ha
  have h2 : (0 : ℚ) ≤ b := by
    rcases hV.entries st p b hb with h | h
    · simp [h]
    · simp [h]
  rw [he]
  exact mul_nonneg h1 h2

theorem getD_map_div_zero (l : List ℚ) (c : ℚ) (a : Nat) :
    (l.map (fun x => x / c)).getD a 0 = l.getD a 0 / c := by
  have := getD_map_zero l (fun x => x / c) (zero_div c) a
  simpa using this

theorem expandLeaf_entry (g : GameE σ ν) (ctx : MCTSCtx ν) (hO : OracleOK g ctx)
    (hV : ValidsOK g) (st : σ) (t : Tables)
    (hnt : g.get_game_ended st (resolvedPlayer g st) = 0) :
    ∃ psN, lookupKV (expandLeaf g ctx st t).2.Ps (keyOf g st) = some psN ∧
      PsEntryOK g (keyOf g st) psN := by
  have hlp : (policy0 g ctx st).1.length = g.actionSize := policy0_len g ctx hO st
  have hlv : (g.get_valid_actions st (resolvedPlayer g st)).length = g.actionSize :=
    hV.lenEq st (resolvedPlayer g st)
  have hmn := masked_nonneg g ctx hO hV st (resolvedPlayer g st)
  simp only [expandLeaf]
  split
  case isTrue hpos =>
    refine ⟨_, by rw [lookupKV_insert_self], ?_, ?_, ?_⟩
    · intro x hx
      rcases List.mem_map.mp hx with ⟨m, hm, he⟩
      rw [← he]
      exact div_nonneg (hmn m hm) (le_of_lt hpos)
    · rw [sum_map_div]
      exact div_self (ne_of_gt hpos)
    · refine ⟨st, rfl, ?_⟩
      intro a ha hz0
      rw [getD_map_div_zero]
      rw [getD_zipWith _ _ _ a (by omega) (by omega)]
      rw [hz0, mul_zero, zero_div]
  case isFalse hneg =>
    have hmz := all_zero_of_sum_nonpos _ hmn (not_lt.mp hneg)
    have hlen : (List.zipWith (fun p w => p * w) (policy0 g ctx st).1
        (g.get_valid_actions st (resolvedPlayer g st))).length =
        (g.get_valid_actions st (resolvedPlayer g st)).length := by
      rw [List.length_zipWith]
      omega
    rw [zipWith_add_eq_right _ _ hlen hmz]
    rcases hV.nonempty st hnt with ⟨a, ha, hnz⟩
    have hmem := getD_mem_of_lt (g.get_valid_actions st (resolvedPlayer g st)) a (by omega)
    have hone : (g.get_valid_actions st (resolvedPlayer g st)).getD a 0 = 1 := by
      rcases hV.entries st (resolvedPlayer g st) _ hmem with h | h
      · exact absurd h hnz
      · exact h
    have hvnn : ∀ y ∈ g.get_valid_actions st (resolvedPlayer g st), 0 ≤ y := by
      intro y hy
      rcases hV.entries st (resolvedPlayer g st) y hy with h | h
      · simp [h]
      · simp [h]
    have hsum1 : (1 : ℚ) ≤ (g.get_valid_actions st (resolvedPlayer g st)).sum := by
      have := single_le_sum_rat _ hvnn _ hmem
      rw [hone] at this
      exact this
    have hspos : (0 : ℚ) < (g.get_valid_actions st (resolvedPlayer g st)).sum := by
      linarith
    refine ⟨_, by rw [lookupKV_insert_self], ?_, ?_, ?_⟩
    · intro x hx
      rcases List.mem_map.mp hx with ⟨m, hm, he⟩
      rw [← he]
      exact div_nonneg (hvnn m hm) (le_of_lt hspos)
    · rw [sum_map_div]
      exact div_self (ne_of_gt hspos)
    · refine ⟨st, rfl, ?_⟩
      intro a2 ha2 hz0
      rw [getD_map_div_zero]
      rw [hz0, zero_div]

/-- Every successful search call preserves the prior-table invariant. -/
theorem search_PsInv (g : GameE σ ν) (ctx : MCTSCtx ν) (hO : OracleOK g ctx)
    (hV : ValidsOK g) :
    ∀ (fuel : Nat) (st : σ) (t : Tables) (v : ℚ) (t1 : Tables),
      search g ctx fuel st t = some (v, t1) → PsInv g t → PsInv g t1 := by
  intro fuel
  induction fuel with
  | zero => intro st t v t1 h; simp [search_zero] at h
  | succ fuel ih =>
    intro st t v t1 h hInv
    by_cases hterm : g.get_game_ended st (resolvedPlayer g st) ≠ 0
    · rw [search_terminal g ctx st fuel t hterm] at h
      injection h with h1
      injection h1 with h2 h3
      rw [← h3]
      exact hInv
    · have hnt : g.get_game_ended st (resolvedPlayer g st) = 0 := by
        by_contra hc
        exact hterm hc
      cases hps : lookupKV t.Ps (keyOf g st) with
      | none =>
        rw [search_leaf g ctx st fuel t hnt hps] at h
        injection h with h1
        injection h1 with h2 h3
        rw [← h3]
        intro s2 ps2 hs2
        by_cases he : s2 = keyOf g st
        · rcases expandLeaf_entry g ctx hO hV st t hnt with ⟨psN, hlook, hOK⟩
          rw [he] at hs2
          rw [hlook] at hs2
          injection hs2 with h4
          rw [← h4]
          rw [he]
          exact hOK
        · rcases expandLeaf_Ps_shape g ctx st t with ⟨ps1, hshape⟩
          rw [hshape, lookupKV_insert_ne _ _ _ _ he] at hs2
          exact hInv s2 ps2 hs2
      | some ps =>
        rw [search_select g ctx st fuel t ps hnt hps] at h
        cases hrec : search g ctx fuel
            (childState g st
              (selectAction g ctx t (keyOf g st)
                (g.get_valid_actions st (resolvedPlayer g st)) ps)) t with
        | none => rw [hrec] at h; exact Option.noConfusion h
        | some p =>
          rcases p with ⟨v0, t2⟩
          rw [hrec] at h
          dsimp only at h
          injection h with h1
          injection h1 with h2 h3
          rw [← h3]
          intro s2 ps2 hs2
          rw [backupEdge_Ps] at hs2
          exact ih _ t v0 t2 hrec (hInv) s2 ps2 hs2

end PsInvLemmas

section NsaLemmas

variable {σ ν : Type}

theorem map_congr_mem (l : List Nat) (f1 f2 : Nat → Nat) (h : ∀ x ∈ l, f2 x = f1 x) :
    l.map f2 = l.map f1 := by
  induction l with
  | nil => rfl
  | cons a tl ih =>
    have := h a (by simp)
    simp [this, ih (fun x hx => h x (by simp [hx]))]

theorem sum_map_range_bump (n aN : Nat) (f1 f2 : Nat → Nat) (ha : aN < n)
    (heq : ∀ x, x ≠ aN → f2 x = f1 x) (hbump : f2 aN = f1 aN + 1) :
    ((List.range n).map f2).sum = ((List.range n).map f1).sum + 1 := by
  induction n with
  | zero => omega
  | succ n2 ih =>
    rw [List.range_succ, List.map_append, List.map_append, List.sum_append, List.sum_append]
    by_cases he : aN = n2
    · subst he
      have hc : (List.range aN).map f2 = (List.range aN).map f1 :=
        map_congr_mem _ _ _ (fun x hx => heq x (by have := List.mem_range.mp hx; omega))
      rw [hc]
      simp only [List.map_cons, List.map_nil, List.sum_cons, List.sum_nil, add_zero, hbump]
      omega
    · have ha2 : aN < n2 := by omega
      simp only [List.map_cons, List.map_nil, List.sum_cons, List.sum_nil, add_zero]
      rw [ih ha2, heq n2 (by omega)]
      omega

theorem backupEdge_sync (s : String) (a : Int) (v : ℚ) (t : Tables) (h : QNSync t) :
    QNSync (backupEdge s a v t) := by
  intro k
  by_cases hk : k = (s, a)
  · subst hk
    unfold backupEdge
    cases h2 : lookupKV t.Qsa (s, a) <;> simp
  · unfold backupEdge
    cases h2 : lookupKV t.Qsa (s, a) <;>
      simp [lookupKV_insert_ne _ _ _ _ hk, h k]

theorem expandLeaf_sync (g : GameE σ ν) (ctx : MCTSCtx ν) (st : σ) (t : Tables)
    (h : QNSync t) : QNSync (expandLeaf g ctx st t).2 := by
  intro k
  have h1 := expandLeaf_Qsa g ctx st t
  have h2 := expandLeaf_Nsa g ctx st t
  rw [h1, h2]
  exact h k

theorem NsaSum_congr_Nsa (g : GameE σ ν) (t1 t : Tables) (s : String)
    (h : t1.Nsa = t.Nsa) : NsaSum g t1 s = NsaSum g t s := by
  unfold NsaSum getNsa
  rw [h]

theorem NsaSum_backup_self (g : GameE σ ν) (t : Tables) (s : String) (aN : Nat) (v : ℚ)
    (ha : aN < g.actionSize)
    (hsync : (lookupKV t.Qsa (s, (aN : Int))).isSome ↔ (lookupKV t.Nsa (s, (aN : Int))).isSome) :
    NsaSum g (backupEdge s (aN : Int) v t) s = NsaSum g t s + 1 := by
  unfold NsaSum
  apply sum_map_range_bump g.actionSize aN _ _ ha
  · intro x hx
    unfold getNsa
    rw [backupEdge_Nsa_other s (aN : Int) v t (s, (x : Int))
      (by simp [Prod.ext_iff]; omega)]
  · exact backupEdge_Nsa_self s (aN : Int) v t hsync

theorem NsaSum_backup_other (g : GameE σ ν) (t : Tables) (s s2 : String) (a : Int) (v : ℚ)
    (hne : s2 ≠ s) :
    NsaSum g (backupEdge s a v t) s2 = NsaSum g t s2 := by
  unfold NsaSum
  congr 1
  apply map_congr_mem
  intro x hx
  unfold getNsa
  rw [backupEdge_Nsa_other s a v t (s2, (x : Int)) (by simp [Prod.ext_iff, hne])]

/-- Visit-count accounting for one search call, under a strictly decreasing
key rank: a completed call increments the root-key edge-visit total by
exactly 1 when the root was already expanded and non-terminal, and by 0
otherwise; keys of rank at least the root's are otherwise untouched, and
the Qsa/Nsa key sets stay synchronized. -/
theorem search_NsaSum (g : GameE σ ν) (ctx : MCTSCtx ν) (hV : ValidsOK g)
    (mu : String → Nat) (hR : RankOK g mu) :
    ∀ (fuel : Nat) (st : σ) (t : Tables) (v : ℚ) (t1 : Tables),
      search g ctx fuel st t = some (v, t1) → QNSync t →
      QNSync t1 ∧
      ∀ s2, mu (keyOf g st) ≤ mu s2 →
        NsaSum g t1 s2 = NsaSum g t s2 +
          (if s2 = keyOf g st ∧ (lookupKV t.Ps (keyOf g st)).isSome ∧
              g.get_game_ended st (resolvedPlayer g st) = 0 then 1 else 0) := by
  intro fuel
  induction fuel with
  | zero => intro st t v t1 h; simp [search_zero] at h
  | succ fuel ih =>
    intro st t v t1 h hsync
    by_cases hterm : g.get_game_ended st (resolvedPlayer g st) ≠ 0
    · rw [search_terminal g ctx st fuel t hterm] at h
      injection h with h1
      injection h1 with h2 h3
      rw [← h3]
      refine ⟨hsync, ?_⟩
      intro s2 hmu
      rw [if_neg (fun hc => hterm hc.2.2)]
      omega
    · have hnt : g.get_game_ended st (resolvedPlayer g st) = 0 := by
        by_contra hc
        exact hterm hc
      cases hps : lookupKV t.Ps (keyOf g st) with
      | none =>
        rw [search_leaf g ctx st fuel t hnt hps] at h
        injection h with h1
        injection h1 with h2 h3
        rw [← h3]
        refine ⟨expandLeaf_sync g ctx st t hsync, ?_⟩
        intro s2 hmu
        rw [NsaSum_congr_Nsa g _ t s2 (expandLeaf_Nsa g ctx st t)]
        rw [if_neg (fun hc => Bool.noConfusion hc.2.1)]
        omega
      | some ps =>
        rw [search_select g ctx st fuel t ps hnt hps] at h
        cases hrec : search g ctx fuel
            (childState g st
              (selectAction g ctx t (keyOf g st)
                (g.get_valid_actions st (resolvedPlayer g st)) ps)) t with
        | none => rw [hrec] at h; exact Option.noConfusion h
        | some p =>
          rcases p with ⟨v0, t2⟩
          rw [hrec] at h
          dsimp only at h
          injection h with h1
          injection h1 with h2 h3
          rcases ih _ t v0 t2 hrec hsync with ⟨hsync2, hsum2⟩
          rw [← h3]
          refine ⟨backupEdge_sync _ _ _ _ hsync2, ?_⟩
          intro s2 hmu
          have hchild := hR st
            (selectAction g ctx t (keyOf g st)
              (g.get_valid_actions st (resolvedPlayer g st)) ps) hnt
          have hmu2 : mu (keyOf g
              (childState g st
                (selectAction g ctx t (keyOf g st)
                  (g.get_valid_actions st (resolvedPlayer g st)) ps))) ≤ mu s2 :=
            le_of_lt (lt_of_lt_of_le hchild hmu)
          have hstep := hsum2 s2 hmu2
          have hcond : ¬(s2 = keyOf g
              (childState g st
                (selectAction g ctx t (keyOf g st)
                  (g.get_valid_actions st (resolvedPlayer g st)) ps)) ∧
              (lookupKV t.Ps (keyOf g
                (childState g st
                  (selectAction g ctx t (keyOf g st)
                    (g.get_valid_actions st (resolvedPlayer g st)) ps)))).isSome ∧
              g.get_game_ended
                (childState g st
                  (selectAction g ctx t (keyOf g st)
                    (g.get_valid_actions st (resolvedPlayer g st)) ps))
                (resolvedPlayer g
                  (childState g st
                    (selectAction g ctx t (keyOf g st)
                      (g.get_valid_actions st (resolvedPlayer g st)) ps))) = 0) := by
            intro hc
            rw [hc.1] at hmu
            omega
          rw [if_neg hcond] at hstep
          rcases selectAction_mem g ctx t (keyOf g st)
              (g.get_valid_actions st (resolvedPlayer g st)) ps
              (hV.nonempty st hnt) with ⟨aN, haN, haEq⟩
          by_cases hs2 : s2 = keyOf g st
          · subst hs2
            rw [haEq]
            rw [NsaSum_backup_self g t2 (keyOf g st) aN _ haN (hsync2 (keyOf g st, (aN : Int)))]
            rw [hstep]
            rw [if_pos ⟨rfl, rfl, hnt⟩]
          · rw [NsaSum_backup_other g t2 (keyOf g st) s2 _ _ hs2]
            rw [hstep]
            rw [if_neg (fun hc => hs2 hc.1)]

end NsaLemmas

section SimsLemmas

variable {σ ν : Type}

theorem NsaSum_empty (g : GameE σ ν) (s : String) : NsaSum g emptyTables s = 0 := by
  simp [NsaSum, getNsa, emptyTables, lookupKV]

theorem QNSync_empty : QNSync emptyTables := by
  intro k
  simp [emptyTables, lookupKV]

theorem rootCounts_sum (g : GameE σ ν) (t : Tables) (st : σ) :
    (rootCounts g t st).sum = NsaSum g t (keyOf g st) := rfl

/-- Edge-visit totals at the root across a block of simulations from a
fixed non-terminal root state: with the root key initially expanded the
total grows by the number of simulations; with the root initially
unexpanded the first simulation only expands, so the total grows by one
less than the number of simulations. -/
theorem simsLoop_NsaSum (g : GameE σ ν) (ctx : MCTSCtx ν) (hV : ValidsOK g)
    (mu : String → Nat) (hR : RankOK g mu) (st : σ)
    (hnt : g.get_game_ended st (resolvedPlayer g st) = 0) :
    ∀ (n fuel : Nat) (t t1 : Tables),
      simsLoop g ctx fuel n st t = some t1 → QNSync t →
      NsaSum g t1 (keyOf g st) = NsaSum g t (keyOf g st) +
        (if (lookupKV t.Ps (keyOf g st)).isSome then n else n - 1) := by
  intro n
  induction n with
  | zero =>
    intro fuel t t1 h hsync
    simp only [simsLoop] at h
    injection h with h1
    rw [← h1]
    split <;> omega
  | succ n ih =>
    intro fuel t t1 h hsync
    simp only [simsLoop] at h
    cases hsr : search g ctx fuel st t with
    | none => rw [hsr] at h; exact Option.noConfusion h
    | some p =>
      rcases p with ⟨v, t2⟩
      rw [hsr] at h
      dsimp only at h
      cases fuel with
      | zero => rw [search_zero] at hsr; exact Option.noConfusion hsr
      | succ f =>
        rcases search_NsaSum g ctx hV mu hR (f + 1) st t v t2 hsr hsync with ⟨hsync2, hsum⟩
        have hstep := hsum (keyOf g st) (le_refl _)
        by_cases hPs : (lookupKV t.Ps (keyOf g st)).isSome = true
        · rw [if_pos ⟨rfl, hPs, hnt⟩] at hstep
          rcases Option.isSome_iff_exists.mp hPs with ⟨ps, hps⟩
          have hmono := search_Ps_mono g ctx (f + 1) st t v t2 hsr (keyOf g st) ps hps
          have hPs2 : (lookupKV t2.Ps (keyOf g st)).isSome = true := by
            rw [hmono]; rfl
          have := ih (f + 1) t2 t1 h hsync2
          rw [if_pos hPs2] at this
          rw [this, hstep, if_pos hPs]
          omega
        · rw [if_neg (fun hc => hPs hc.2.1)] at hstep
          have hPs2 : (lookupKV t2.Ps (keyOf g st)).isSome = true :=
            search_expands g ctx f st t v t2 hsr hnt
          have := ih (f + 1) t2 t1 h hsync2
          rw [if_pos hPs2] at this
          rw [this, hstep, if_neg hPs]
          omega

end SimsLemmas

section BackupLemmas

theorem backupSeq_nil (s : String) (a : Int) (t : Tables) : backupSeq s a [] t = t := rfl

theorem backupSeq_cons (s : String) (a : Int) (v : ℚ) (vs : List ℚ) (t : Tables) :
    backupSeq s a (v :: vs) t = backupSeq s a vs (backupEdge s a v t) := rfl

theorem backupEdge_lookup_some (s : String) (a : Int) (v : ℚ) (t : Tables) (q : ℚ) (k : Nat)
    (hq : lookupKV t.Qsa (s, a) = some q) (hk : lookupKV t.Nsa (s, a) = some k) :
    lookupKV (backupEdge s a v t).Qsa (s, a) = some (((k : ℚ) * q + v) / ((k : ℚ) + 1)) ∧
    lookupKV (backupEdge s a v t).Nsa (s, a) = some (k + 1) := by
  unfold backupEdge
  rw [hq]
  dsimp only
  have hn : getNsa t s a = k := by simp [getNsa, hk]
  rw [hn]
  exact ⟨lookupKV_insert_self _ _ _, lookupKV_insert_self _ _ _⟩

theorem backupEdge_lookup_none (s : String) (a : Int) (v : ℚ) (t : Tables)
    (hq : lookupKV t.Qsa (s, a) = none) :
    lookupKV (backupEdge s a v t).Qsa (s, a) = some v ∧
    lookupKV (backupEdge s a v t).Nsa (s, a) = some 1 := by
  unfold backupEdge
  rw [hq]
  dsimp only
  exact ⟨lookupKV_insert_self _ _ _, lookupKV_insert_self _ _ _⟩

theorem backupSeq_run (s : String) (a : Int) :
    ∀ (vs : List ℚ) (t : Tables) (S : ℚ) (k : Nat), 0 < k →
      lookupKV t.Qsa (s, a) = some (S / (k : ℚ)) →
      lookupKV t.Nsa (s, a) = some k →
      lookupKV (backupSeq s a vs t).Qsa (s, a) =
          some ((S + vs.sum) / ((k : ℚ) + (vs.length : ℚ))) ∧
      lookupKV (backupSeq s a vs t).Nsa (s, a) = some (k + vs.length) ∧
      getNs (backupSeq s a vs t) s = getNs t s + vs.length := by
  intro vs
  induction vs with
  | nil =>
    intro t S k hk hq hn
    rw [backupSeq_nil]
    refine ⟨?_, by simpa using hn, by simp⟩
    rw [hq]
    norm_num
  | cons v vs ih =>
    intro t S k hk hq hn
    rw [backupSeq_cons]
    have hkq : ((k : ℚ)) ≠ 0 := by positivity
    rcases backupEdge_lookup_some s a v t _ k hq hn with ⟨hq2, hn2⟩
    have hval : ((k : ℚ) * (S / (k : ℚ)) + v) / ((k : ℚ) + 1) = (S + v) / ((k : ℚ) + 1) := by
      rw [mul_div_cancel₀ _ hkq]
    rw [hval] at hq2
    have hfrac : S + v = (S + v) := rfl
    have hq3 : lookupKV (backupEdge s a v t).Qsa (s, a) =
        some ((S + v) / ((k + 1 : Nat) : ℚ)) := by
      rw [hq2]
      norm_num
    rcases ih (backupEdge s a v t) (S + v) (k + 1) (by omega) hq3 hn2 with ⟨hA, hB, hC⟩
    refine ⟨?_, ?_, ?_⟩
    · rw [hA]
      congr 1
      rw [List.sum_cons, List.length_cons]
      push_cast
      ring_nf
    · rw [hB]
      rw [List.length_cons]
      congr 1
      omega
    · rw [hC, backupEdge_Ns_self, List.length_cons]
      omega

end BackupLemmas

section ActionProbLemmas

variable {σ ν : Type}

theorem rootCounts_length (g : GameE σ ν) (t : Tables) (st : σ) :
    (rootCounts g t st).length = g.actionSize := by
  simp [rootCounts]

theorem getD_get_nat (l : List Nat) :
    ∀ (i : Nat) (h : i < l.length), l.getD i 0 = l.get ⟨i, h⟩ := by
  induction l with
  | nil => intro i h; simp at h
  | cons a tl ih =>
    intro i h
    cases i with
    | zero => rfl
    | succ i2 => exact ih i2 (by simpa using h)

theorem list_sum_zero (l : List ℚ) (h : ∀ x ∈ l, x = 0) : l.sum = 0 := by
  induction l with
  | nil => rfl
  | cons a tl ih =>
    have ha := h a (by simp)
    simp [ha, ih (fun x hx => h x (by simp [hx]))]

theorem natMax_getD_index (l : List Nat) (h : l ≠ []) :
    ∃ i, i < l.length ∧ l.getD i 0 = natMax l := by
  have hm := natMax_mem l h
  rcases List.mem_iff_get.mp hm with ⟨⟨i, hi⟩, hEq⟩
  exact ⟨i, hi, by rw [getD_get_nat l i hi, hEq]⟩

end ActionProbLemmas

section Claims

variable {σ ν : Type}

/-- Claim C7: the learning loop's gate accepts the new oracle pair iff
`newWins + prevWins > 0` and `newWins / (newWins + prevWins) >=
updateThreshold`; otherwise both oracles roll back to the pre-fit
snapshot; an all-draw arena (`newWins + prevWins = 0`) is rejected rather
than faulting; with threshold 3/5, 5 wins vs 5 is rejected while 7 wins
vs 3 is accepted. -/
theorem C7_gate (nwins pwins : Nat) (thr : ℚ) (M : Type) (current snapshot : M × M) :
    (gate_accepts nwins pwins thr = true ↔
      (0 < nwins + pwins ∧ thr ≤ (nwins : ℚ) / ((nwins : ℚ) + (pwins : ℚ)))) ∧
    (gate_accepts nwins pwins thr = false →
      gateModels nwins pwins thr current snapshot = snapshot) ∧
    (gate_accepts nwins pwins thr = true →
      gateModels nwins pwins thr current snapshot = current) ∧
    gate_accepts 0 0 thr = false ∧
    gate_accepts 5 5 (3/5) = false ∧
    gate_accepts 7 3 (3/5) = true := by
  refine ⟨?_, ?_, ?_, ?_, ?_, ?_⟩
  · unfold gate_accepts
    by_cases hc : pwins + nwins = 0 ∨ (nwins : ℚ) / ((pwins + nwins : Nat) : ℚ) < thr
    · rw [if_pos hc]
      constructor
      · intro h; exact Bool.noConfusion h
      · intro ⟨h1, h2⟩
        rcases hc with h3 | h3
        · omega
        · have hcast : ((pwins + nwins : Nat) : ℚ) = (nwins : ℚ) + (pwins : ℚ) := by
            push_cast; ring
          rw [hcast] at h3
          linarith
    · rw [if_neg hc]
      rcases not_or.mp hc with ⟨h1, h2⟩
      constructor
      · intro _
        refine ⟨by omega, ?_⟩
        have hcast : ((pwins + nwins : Nat) : ℚ) = (nwins : ℚ) + (pwins : ℚ) := by
          push_cast; ring
        rw [hcast] at h2
        linarith [not_lt.mp h2]
      · intro _; rfl
  · intro h
    unfold gateModels
    rw [h]
    rfl
  · intro h
    unfold gateModels
    rw [h]
    rfl
  · rfl
  · unfold gate_accepts
    rw [if_pos]
    right
    norm_num
  · unfold gate_accepts
    rw [if_neg]
    intro hc
    rcases hc with h | h
    · omega
    · norm_num at h

/-- Witness for C7 at the concrete gate scenario of the spec
(threshold 3/5, arena results 7 wins vs 3 and the degenerate 0 vs 0). -/
theorem C7_witness :
    (gate_accepts 7 3 (3/5) = true ↔
      (0 < 7 + 3 ∧ (3/5 : ℚ) ≤ ((7 : Nat) : ℚ) / (((7 : Nat) : ℚ) + ((3 : Nat) : ℚ)))) ∧
    (gate_accepts 7 3 (3/5) = false →
      gateModels 7 3 (3/5) (((1 : Nat), (1 : Nat)) : Nat × Nat) (((0 : Nat), (0 : Nat)) : Nat × Nat) =
        (((0 : Nat), (0 : Nat)) : Nat × Nat)) ∧
    (gate_accepts 7 3 (3/5) = true →
      gateModels 7 3 (3/5) (((1 : Nat), (1 : Nat)) : Nat × Nat) (((0 : Nat), (0 : Nat)) : Nat × Nat) =
        (((1 : Nat), (1 : Nat)) : Nat × Nat)) ∧
    gate_accepts 0 0 (3/5) = false ∧
    gate_accepts 5 5 (3/5) = false ∧
    gate_accepts 7 3 (3/5) = true :=
  C7_gate 7 3 (3/5) Nat ((1 : Nat), (1 : Nat)) ((0 : Nat), (0 : Nat))

/-- Claim C9: at a terminal state (non-zero `get_game_ended` under the
resolved player) every search call returns the terminal value, negated
iff the game is alternate-turn, and leaves the statistics tables
untouched, for every fuel and every table. -/
theorem C9_terminal (g : GameE σ ν) (ctx : MCTSCtx ν) (st : σ)
    (hterm : g.get_game_ended st (resolvedPlayer g st) ≠ 0) (fuel : Nat) (t : Tables) :
    search g ctx (fuel + 1) st t =
      some (if g.alternate_turn then -(g.get_game_ended st (resolvedPlayer g st))
            else g.get_game_ended st (resolvedPlayer g st), t) :=
  search_terminal g ctx st fuel t hterm

/-- Witness for C9 at a concrete terminal state of the toy game. -/
theorem C9_witness :
    (gEx.get_game_ended TS.winS (resolvedPlayer gEx TS.winS) ≠ 0) ∧
    search gEx ctxEx 1 TS.winS emptyTables =
      some (if gEx.alternate_turn then -(gEx.get_game_ended TS.winS (resolvedPlayer gEx TS.winS))
            else gEx.get_game_ended TS.winS (resolvedPlayer gEx TS.winS), emptyTables) :=
  ⟨by norm_num [gEx, resolvedPlayer],
   C9_terminal gEx ctxEx TS.winS (by norm_num [gEx, resolvedPlayer]) 0 emptyTables⟩

/-- Claim C3: starting from an edge `(s, a)` absent from `Qsa`/`Nsa`,
folding the backup of lines 132-140 of mcts.py over child values
`v_1..v_k` leaves `Q[s,a]` equal to their arithmetic mean, `N[s,a] = k`,
and `N[s]` incremented once per backup. -/
theorem C3_backup_mean (s : String) (a : Int) (vs : List ℚ) (t : Tables)
    (hq : lookupKV t.Qsa (s, a) = none) (hn : lookupKV t.Nsa (s, a) = none)
    (hne : vs ≠ []) :
    lookupKV (backupSeq s a vs t).Qsa (s, a) = some (vs.sum / (vs.length : ℚ)) ∧
    lookupKV (backupSeq s a vs t).Nsa (s, a) = some vs.length ∧
    getNs (backupSeq s a vs t) s = getNs t s + vs.length := by
  cases vs with
  | nil => exact absurd rfl hne
  | cons v vs2 =>
    rw [backupSeq_cons]
    rcases backupEdge_lookup_none s a v t hq with ⟨hq2, hn2⟩
    have hq3 : lookupKV (backupEdge s a v t).Qsa (s, a) = some (v / ((1 : Nat) : ℚ)) := by
      rw [hq2]
      norm_num
    rcases backupSeq_run s a vs2 (backupEdge s a v t) v 1 (by omega) hq3 hn2 with ⟨hA, hB, hC⟩
    refine ⟨?_, ?_, ?_⟩
    · rw [hA]
      congr 1
      rw [List.sum_cons, List.length_cons]
      push_cast
      ring_nf
    · rw [hB, List.length_cons]
      congr 1
      omega
    · rw [hC, backupEdge_Ns_self, List.length_cons]
      omega

/-- Witness for C3 on a concrete fresh edge with values 1 and 3 (mean 2). -/
theorem C3_witness :
    lookupKV emptyTables.Qsa ("e", 0) = none ∧
    lookupKV emptyTables.Nsa ("e", 0) = none ∧
    ([(1 : ℚ), 3] ≠ []) ∧
    (lookupKV (backupSeq "e" 0 [1, 3] emptyTables).Qsa ("e", 0) =
        some (([(1 : ℚ), 3].sum) / (([(1 : ℚ), 3].length : ℚ)) ) ∧
      lookupKV (backupSeq "e" 0 [1, 3] emptyTables).Nsa ("e", 0) = some ([(1 : ℚ), 3].length) ∧
      getNs (backupSeq "e" 0 [1, 3] emptyTables) "e" = getNs emptyTables "e" + [(1 : ℚ), 3].length) :=
  ⟨rfl, rfl, by simp,
   C3_backup_mean "e" 0 [1, 3] emptyTables rfl rfl (by simp)⟩

/-- Claim C5 (amended): with a positive temperature and all root visit
counts zero, `get_action_prob` fails by reaching the float division by
zero of `probs = [x / counts_sum ...]` (Python's `ZeroDivisionError`);
the source performs no separate configuration-error check.  `hf` is the
float fact 0 ** (1/temp) = 0. -/
theorem C5_divzero (g : GameE σ ν) (ctx : MCTSCtx ν) (fuel n : Nat) (st : σ)
    (t t1 : Tables) (temp : ℚ)
    (hs : simsLoop g ctx fuel n st t = some t1)
    (hz : ∀ c ∈ rootCounts g t1 st, c = 0)
    (htemp : temp ≠ 0)
    (hf : ctx.fpow 0 (1 / temp) = 0)
    (hn : 0 < g.actionSize) :
    get_action_prob g ctx fuel n st temp t = .error .divisionByZero := by
  unfold get_action_prob
  rw [hs]
  dsimp only
  rw [if_neg htemp]
  have hall : ∀ x ∈ (rootCounts g t1 st).map (fun (x : Nat) => ctx.fpow (x : ℚ) (1 / temp)),
      x = 0 := by
    intro x hx
    rcases List.mem_map.mp hx with ⟨c, hc, he⟩
    rw [← he, hz c hc]
    simpa using hf
  rw [if_pos (list_sum_zero _ hall)]
  have hlen : ((rootCounts g t1 st).map (fun (x : Nat) => ctx.fpow (x : ℚ) (1 / temp))).length =
      g.actionSize := by
    rw [List.length_map, rootCounts_length]
  have hni : ¬((rootCounts g t1 st).map
      (fun (x : Nat) => ctx.fpow (x : ℚ) (1 / temp))).isEmpty = true := by
    intro hc
    cases hm : (rootCounts g t1 st).map (fun (x : Nat) => ctx.fpow (x : ℚ) (1 / temp)) with
    | nil => rw [hm] at hlen; simp at hlen; omega
    | cons y ys => rw [hm] at hc; exact Bool.noConfusion hc
  rw [if_neg hni]

/-- Counterexample for C5 as stated: on the toy game with zero
simulations and temperature 1, the call reaches the division by zero (it
does not fail with a distinct configuration error before dividing). -/
theorem C5_counterexample :
    get_action_prob gEx ctxEx 1 0 TS.root 1 emptyTables = .error .divisionByZero := by
  norm_num [get_action_prob, simsLoop, rootCounts, getNsa, lookupKV, emptyTables, keyOf,
    gEx, ctxEx, List.range_succ]

/-- Witness for the amended C5 at the same concrete input. -/
theorem C5_witness :
    (simsLoop gEx ctxEx 1 0 TS.root emptyTables = some emptyTables) ∧
    (∀ c ∈ rootCounts gEx emptyTables TS.root, c = 0) ∧
    ((1 : ℚ) ≠ 0) ∧
    (ctxEx.fpow 0 (1 / 1) = 0) ∧
    (0 < gEx.actionSize) ∧
    get_action_prob gEx ctxEx 1 0 TS.root 1 emptyTables = .error .divisionByZero := by
  have h1 : simsLoop gEx ctxEx 1 0 TS.root emptyTables = some emptyTables := rfl
  have h2 : ∀ c ∈ rootCounts gEx emptyTables TS.root, c = 0 := by
    norm_num [rootCounts, getNsa, lookupKV, emptyTables, keyOf, gEx, List.range_succ]
  have h3 : (1 : ℚ) ≠ 0 := by norm_num
  have h4 : ctxEx.fpow 0 (1 / 1) = 0 := rfl
  have h5 : 0 < gEx.actionSize := by norm_num [gEx]
  exact ⟨h1, h2, h3, h4, h5, C5_divzero gEx ctxEx 1 0 TS.root emptyTables emptyTables 1 h1 h2 h3 h4 h5⟩

/-- Claim C2 (amended): from a fresh, empty statistics table and a
non-terminal root, with strictly rank-decreasing keys along transitions,
after `numMCTSSims` simulations the root edge-visit counts sum to
`numMCTSSims - 1` (the first simulation only expands the root), not
`numMCTSSims`. -/
theorem C2_rootSum (g : GameE σ ν) (ctx : MCTSCtx ν) (hV : ValidsOK g)
    (mu : String → Nat) (hR : RankOK g mu)
    (st : σ) (hnt : g.get_game_ended st (resolvedPlayer g st) = 0)
    (n fuel : Nat) (t1 : Tables)
    (hrun : simsLoop g ctx fuel n st emptyTables = some t1) :
    (rootCounts g t1 st).sum = n - 1 := by
  have h := simsLoop_NsaSum g ctx hV mu hR st hnt n fuel emptyTables t1 hrun QNSync_empty
  rw [NsaSum_empty] at h
  rw [rootCounts_sum, h]
  rw [if_neg (by simp [emptyTables, lookupKV])]
  omega

/-- Counterexample for C2 as stated: after exactly 1 simulation from a
fresh table on the toy game, the root edge-visit counts sum to 0, not 1. -/
theorem C2_counterexample :
    (simsLoop gEx ctxEx 2 1 TS.root emptyTables).map
        (fun t => (rootCounts gEx t TS.root).sum) = some 0 ∧
    (simsLoop gEx ctxEx 2 1 TS.root emptyTables).map
        (fun t => (rootCounts gEx t TS.root).sum) ≠ some 1 := by
  have h : (simsLoop gEx ctxEx 2 1 TS.root emptyTables).map
      (fun t => (rootCounts gEx t TS.root).sum) = some 0 := by
    norm_num [simsLoop, search, expandLeaf, policy0, keyOf, resolvedPlayer, lookupKV, insertKV,
      gEx, ctxEx, emptyTables, List.zipWith, rootCounts, getNsa, List.range_succ]
  refine ⟨h, ?_⟩
  rw [h]
  simp

/-- Witness for the amended C2: two simulations from the fresh table on
the toy game leave the root edge-visit total at 1 = 2 - 1. -/
theorem C2_witness :
    ValidsOK gEx ∧ RankOK gEx muEx ∧
    gEx.get_game_ended TS.root (resolvedPlayer gEx TS.root) = 0 ∧
    simsLoop gEx ctxEx 2 2 TS.root emptyTables = some tTwoSims ∧
    (rootCounts gEx tTwoSims TS.root).sum = 2 - 1 := by
  have hV : ValidsOK gEx := by
    refine ⟨?_, ?_, ?_⟩
    · intro st p q hq
      simp [gEx] at hq
      simp [hq]
    · intro st p
      norm_num [gEx]
    · intro st hst
      refine ⟨0, by norm_num [gEx], ?_⟩
      norm_num [gEx]
  have hR : RankOK gEx muEx := by
    intro st a h
    cases st with
    | root =>
      by_cases ha : a = 0
      · simp [childState, gEx, resolvedPlayer, keyOf, muEx, ha]
      · simp [childState, gEx, resolvedPlayer, keyOf, muEx, ha]
    | winS => simp [gEx, resolvedPlayer] at h
    | loseS => simp [gEx, resolvedPlayer] at h
  have hnt : gEx.get_game_ended TS.root (resolvedPlayer gEx TS.root) = 0 := by
    norm_num [gEx, resolvedPlayer]
  have hrun : simsLoop gEx ctxEx 2 2 TS.root emptyTables = some tTwoSims := by
    norm_num [simsLoop, search, expandLeaf, policy0, keyOf, resolvedPlayer, lookupKV, insertKV,
      gEx, ctxEx, emptyTables, List.zipWith, selectAction, selectLoop, ucbScore,
      backupEdge, getNs, getNsa, List.range_succ, EPS, tTwoSims]
  exact ⟨hV, hR, hnt, hrun,
    C2_rootSum gEx ctxEx hV muEx hR TS.root hnt 2 2 tTwoSims hrun⟩

/-- Claim C10: under the oracle and legal-action contracts, every
successful search call preserves the prior-table invariant (each stored
`Ps[s]` is nonnegative, sums to 1, and is zero on actions illegal at its
expansion state), and never rewrites an existing `Ps[s]` entry. -/
theorem C10_PsInv (g : GameE σ ν) (ctx : MCTSCtx ν) (hO : OracleOK g ctx) (hV : ValidsOK g)
    (fuel : Nat) (st : σ) (t : Tables) (v : ℚ) (t1 : Tables)
    (hrun : search g ctx fuel st t = some (v, t1))
    (hInv : PsInv g t) :
    PsInv g t1 ∧ ∀ s2 ps2, lookupKV t.Ps s2 = some ps2 → lookupKV t1.Ps s2 = some ps2 :=
  ⟨search_PsInv g ctx hO hV fuel st t v t1 hrun hInv,
   search_Ps_mono g ctx fuel st t v t1 hrun⟩

/-- Witness for C10 on a concrete expansion run of the toy game. -/
theorem C10_witness :
    OracleOK gEx ctxEx ∧ ValidsOK gEx ∧
    search gEx ctxEx 1 TS.root emptyTables = some (0, tExpand) ∧
    PsInv gEx emptyTables ∧
    (PsInv gEx tExpand ∧
      ∀ s2 ps2, lookupKV emptyTables.Ps s2 = some ps2 → lookupKV tExpand.Ps s2 = some ps2) := by
  have hO : OracleOK gEx ctxEx := by
    refine ⟨?_, ?_⟩
    · intro x
      constructor <;> · intro q hq; simp [ctxEx] at hq; norm_num [hq]
    · intro x
      constructor <;> norm_num [ctxEx, gEx]
  have hV : ValidsOK gEx := by
    refine ⟨?_, ?_, ?_⟩
    · intro st p q hq
      simp [gEx] at hq
      simp [hq]
    · intro st p
      norm_num [gEx]
    · intro st hst
      refine ⟨0, by norm_num [gEx], ?_⟩
      norm_num [gEx]
  have hrun : search gEx ctxEx 1 TS.root emptyTables = some (0, tExpand) := by
    norm_num [search, expandLeaf, policy0, keyOf, resolvedPlayer, lookupKV, insertKV, gEx,
      ctxEx, emptyTables, List.zipWith, tExpand]
  have hInv : PsInv gEx emptyTables := by
    intro s ps h
    simp [emptyTables, lookupKV] at h
  exact ⟨hO, hV, hrun, hInv,
    C10_PsInv gEx ctxEx hO hV 1 TS.root emptyTables 0 tExpand hrun hInv⟩

/-- Claim C4: a successful temperature-0 call of `get_action_prob`
returns a one-hot vector summing exactly to 1 whose nonzero entry is an
action of maximal root visit count; the tie-break draw is any choice
among the tied actions (`np.random.choice`, modelled by `chooser`). -/
theorem C4_temp0 (g : GameE σ ν) (ctx : MCTSCtx ν) (fuel n : Nat) (st : σ)
    (t t1 : Tables) (probs : List ℚ)
    (hch : ∀ l : List Nat, l ≠ [] → ctx.chooser l ∈ l)
    (hrun : get_action_prob g ctx fuel n st 0 t = .ok (probs, t1))
    (hpos : ∃ a, a < g.actionSize ∧ 0 < (rootCounts g t1 st).getD a 0) :
    probs.sum = 1 ∧
    ∃ a, a < g.actionSize ∧
      probs = (List.replicate g.actionSize (0 : ℚ)).set a 1 ∧
      (rootCounts g t1 st).getD a 0 = natMax (rootCounts g t1 st) := by
  unfold get_action_prob at hrun
  cases hs : simsLoop g ctx fuel n st t with
  | none => rw [hs] at hrun; exact Except.noConfusion hrun
  | some t2 =>
    rw [hs] at hrun
    dsimp only at hrun
    rw [if_pos rfl] at hrun
    by_cases hemp : (rootCounts g t2 st).isEmpty = true
    · rw [if_pos hemp] at hrun
      exact Except.noConfusion hrun
    · rw [if_neg hemp] at hrun
      injection hrun with h1
      injection h1 with h2 h3
      subst h3
      have hne : rootCounts g t2 st ≠ [] := by
        intro hc
        rw [hc] at hemp
        exact hemp rfl
      rcases natMax_getD_index (rootCounts g t2 st) hne with ⟨i, hi, hgd⟩
      have hbne : (List.range (rootCounts g t2 st).length).filter
          (fun a => (rootCounts g t2 st).getD a 0 = natMax (rootCounts g t2 st)) ≠ [] := by
        intro hc
        have hmem : i ∈ (List.range (rootCounts g t2 st).length).filter
            (fun a => (rootCounts g t2 st).getD a 0 = natMax (rootCounts g t2 st)) :=
          List.mem_filter.mpr ⟨List.mem_range.mpr hi, decide_eq_true hgd⟩
        rw [hc] at hmem
        simp at hmem
      have hcmem := hch _ hbne
      rcases List.mem_filter.mp hcmem with ⟨hrange, hdec⟩
      have hltLen := List.mem_range.mp hrange
      have hlt : ctx.chooser ((List.range (rootCounts g t2 st).length).filter
          (fun a => (rootCounts g t2 st).getD a 0 = natMax (rootCounts g t2 st))) <
          g.actionSize := by
        have hlen := rootCounts_length g t2 st
        omega
      refine ⟨?_, ?_⟩
      · rw [← h2]
        exact sum_replicate_set (rootCounts g t2 st).length _ (List.mem_range.mp hrange)
      · refine ⟨_, hlt, ?_, of_decide_eq_true hdec⟩
        rw [← h2]
        congr 1
        rw [rootCounts_length]

/-- Witness for C4: temperature-0 call after two simulations of the toy
game returns the one-hot vector on the uniquely most-visited action 0. -/
theorem C4_witness :
    (∀ l : List Nat, l ≠ [] → ctxEx.chooser l ∈ l) ∧
    get_action_prob gEx ctxEx 2 2 TS.root 0 emptyTables = .ok ([1, 0], tTwoSims) ∧
    (∃ a, a < gEx.actionSize ∧ 0 < (rootCounts gEx tTwoSims TS.root).getD a 0) ∧
    (([(1 : ℚ), 0].sum = 1) ∧
      ∃ a, a < gEx.actionSize ∧
        ([(1 : ℚ), 0] = (List.replicate gEx.actionSize (0 : ℚ)).set a 1) ∧
        (rootCounts gEx tTwoSims TS.root).getD a 0 = natMax (rootCounts gEx tTwoSims TS.root)) := by
  have hch : ∀ l : List Nat, l ≠ [] → ctxEx.chooser l ∈ l := by
    intro l hl
    cases l with
    | nil => exact absurd rfl hl
    | cons a tl => simp [ctxEx]
  have hrun : get_action_prob gEx ctxEx 2 2 TS.root 0 emptyTables = .ok ([1, 0], tTwoSims) := by
    norm_num [get_action_prob, simsLoop, search, expandLeaf, policy0, keyOf, resolvedPlayer,
      lookupKV, insertKV, gEx, ctxEx, emptyTables, List.zipWith, selectAction, selectLoop,
      ucbScore, backupEdge, getNs, getNsa, List.range_succ, EPS, tTwoSims, rootCounts, natMax,
      List.replicate, List.set]
  have hpos : ∃ a, a < gEx.actionSize ∧ 0 < (rootCounts gEx tTwoSims TS.root).getD a 0 := by
    refine ⟨0, by norm_num [gEx], ?_⟩
    norm_num [rootCounts, getNsa, lookupKV, tTwoSims, keyOf, gEx, List.range_succ]
  exact ⟨hch, hrun, hpos, C4_temp0 gEx ctxEx 2 2 TS.root emptyTables tTwoSims [1, 0] hch hrun hpos⟩

theorem zipWith_mul_nonneg (l1 l2 : List ℚ) (h1 : ∀ x ∈ l1, 0 ≤ x) (h2 : ∀ x ∈ l2, 0 ≤ x) :
    ∀ x ∈ List.zipWith (fun p w => p * w) l1 l2, 0 ≤ x := by
  intro x hx
  rcases mem_zipWith_mul l1 l2 x hx with ⟨p, q, hp, hq, he⟩
  rw [he]
  exact mul_nonneg (h1 p hp) (h2 q hq)

/-- Claim C6: at a leaf expansion whose masked oracle policy sums to a
value at most 0, search still succeeds, stores the uniform distribution
over legal actions (the legality mask renormalized), and emits the
observable all-moves-masked log event; when the masked sum is positive
the stored policy is the masked policy renormalized to sum to 1 and no
event is logged. -/
theorem C6_fallback (g : GameE σ ν) (ctx : MCTSCtx ν) (st : σ) (t : Tables) (fuel : Nat)
    (valids masked : List ℚ)
    (hveq : valids = g.get_valid_actions st (resolvedPlayer g st))
    (hmeq : masked = List.zipWith (fun p w => p * w) (policy0 g ctx st).1 valids)
    (hnt : g.get_game_ended st (resolvedPlayer g st) = 0)
    (hps : lookupKV t.Ps (keyOf g st) = none)
    (hnn : ∀ q ∈ (policy0 g ctx st).1, 0 ≤ q)
    (hlp : (policy0 g ctx st).1.length = g.actionSize)
    (hlv : valids.length = g.actionSize)
    (hv01 : ∀ q ∈ valids, q = 0 ∨ q = 1)
    (hex : ∃ a, a < g.actionSize ∧ valids.getD a 0 ≠ 0) :
    search g ctx (fuel + 1) st t =
      some (if g.alternate_turn then -(expandLeaf g ctx st t).1 else (expandLeaf g ctx st t).1,
        (expandLeaf g ctx st t).2) ∧
    (masked.sum ≤ 0 →
      lookupKV (expandLeaf g ctx st t).2.Ps (keyOf g st) =
          some (valids.map (fun x => x / valids.sum)) ∧
      (expandLeaf g ctx st t).2.log = LogEvent.allValidMovesMasked :: t.log) ∧
    (0 < masked.sum →
      (∃ psN, lookupKV (expandLeaf g ctx st t).2.Ps (keyOf g st) = some psN ∧ psN.sum = 1) ∧
      (expandLeaf g ctx st t).2.log = t.log) := by
  subst hmeq
  subst hveq
  have hvnn : ∀ x ∈ g.get_valid_actions st (resolvedPlayer g st), 0 ≤ x := by
    intro x hx
    rcases hv01 x hx with h | h <;> simp [h]
  refine ⟨search_leaf g ctx st fuel t hnt hps, ?_, ?_⟩
  · intro hsum
    have hmz := all_zero_of_sum_nonpos _
      (zipWith_mul_nonneg _ _ hnn hvnn) hsum
    have hlen : (List.zipWith (fun p w => p * w) (policy0 g ctx st).1
        (g.get_valid_actions st (resolvedPlayer g st))).length =
        (g.get_valid_actions st (resolvedPlayer g st)).length := by
      rw [List.length_zipWith]
      omega
    simp only [expandLeaf]
    rw [if_neg (not_lt.mpr hsum)]
    dsimp only
    rw [zipWith_add_eq_right _ _ hlen hmz]
    exact ⟨lookupKV_insert_self _ _ _, rfl⟩
  · intro hsum
    simp only [expandLeaf]
    rw [if_pos hsum]
    dsimp only
    refine ⟨⟨_, lookupKV_insert_self _ _ _, ?_⟩, rfl⟩
    rw [sum_map_div]
    exact div_self (ne_of_gt hsum)

/-- Witness for C6 on the toy game with the degenerate all-zero oracle:
the stored prior is the uniform distribution over the two legal actions
and the warning event is logged. -/
theorem C6_witness :
    ([(1 : ℚ), 1] = gEx.get_valid_actions TS.root (resolvedPlayer gEx TS.root)) ∧
    ([(0 : ℚ), 0] = List.zipWith (fun p w => p * w) (policy0 gEx ctxZero TS.root).1 [(1 : ℚ), 1]) ∧
    gEx.get_game_ended TS.root (resolvedPlayer gEx TS.root) = 0 ∧
    lookupKV emptyTables.Ps (keyOf gEx TS.root) = none ∧
    (∀ q ∈ (policy0 gEx ctxZero TS.root).1, 0 ≤ q) ∧
    ((policy0 gEx ctxZero TS.root).1.length = gEx.actionSize) ∧
    (([(1 : ℚ), 1] : List ℚ).length = gEx.actionSize) ∧
    (∀ q ∈ [(1 : ℚ), 1], q = 0 ∨ q = 1) ∧
    (∃ a, a < gEx.actionSize ∧ ([(1 : ℚ), 1] : List ℚ).getD a 0 ≠ 0) ∧
    (search gEx ctxZero (0 + 1) TS.root emptyTables =
        some (if gEx.alternate_turn then -(expandLeaf gEx ctxZero TS.root emptyTables).1
              else (expandLeaf gEx ctxZero TS.root emptyTables).1,
          (expandLeaf gEx ctxZero TS.root emptyTables).2) ∧
      (([(0 : ℚ), 0] : List ℚ).sum ≤ 0 →
        lookupKV (expandLeaf gEx ctxZero TS.root emptyTables).2.Ps (keyOf gEx TS.root) =
            some (([(1 : ℚ), 1] : List ℚ).map (fun x => x / ([(1 : ℚ), 1] : List ℚ).sum)) ∧
        (expandLeaf gEx ctxZero TS.root emptyTables).2.log =
          LogEvent.allValidMovesMasked :: emptyTables.log) ∧
      (0 < ([(0 : ℚ), 0] : List ℚ).sum →
        (∃ psN, lookupKV (expandLeaf gEx ctxZero TS.root emptyTables).2.Ps (keyOf gEx TS.root) =
            some psN ∧ psN.sum = 1) ∧
        (expandLeaf gEx ctxZero TS.root emptyTables).2.log = emptyTables.log)) := by
  have h1 : [(1 : ℚ), 1] = gEx.get_valid_actions TS.root (resolvedPlayer gEx TS.root) := rfl
  have h2 : [(0 : ℚ), 0] =
      List.zipWith (fun p w => p * w) (policy0 gEx ctxZero TS.root).1 [(1 : ℚ), 1] := by
    norm_num [policy0, gEx, ctxZero, List.zipWith]
  have h3 : gEx.get_game_ended TS.root (resolvedPlayer gEx TS.root) = 0 := by
    norm_num [gEx, resolvedPlayer]
  have h4 : lookupKV emptyTables.Ps (keyOf gEx TS.root) = none := rfl
  have h5 : ∀ q ∈ (policy0 gEx ctxZero TS.root).1, 0 ≤ q := by
    intro q hq
    simp [policy0, gEx, ctxZero] at hq
    norm_num [hq]
  have h6 : (policy0 gEx ctxZero TS.root).1.length = gEx.actionSize := by
    norm_num [policy0, gEx, ctxZero]
  have h7 : ([(1 : ℚ), 1] : List ℚ).length = gEx.actionSize := by
    norm_num [gEx]
  have h8 : ∀ q ∈ [(1 : ℚ), 1], q = 0 ∨ q = 1 := by
    intro q hq
    simp at hq
    simp [hq]
  have h9 : ∃ a, a < gEx.actionSize ∧ ([(1 : ℚ), 1] : List ℚ).getD a 0 ≠ 0 := by
    refine ⟨0, by norm_num [gEx], by norm_num⟩
  exact ⟨h1, h2, h3, h4, h5, h6, h7, h8, h9,
    C6_fallback gEx ctxZero TS.root emptyTables 0 [(1 : ℚ), 1] [(0 : ℚ), 0]
      h1 h2 h3 h4 h5 h6 h7 h8 h9⟩

/-- Counterexample for C8 as stated: on a game whose legal-action vector
is all zeros at a non-terminal, already-expanded root, search does not
surface any error; it completes normally, and the statistics record the
sentinel action -1 having been taken at the root. -/
theorem C8_counterexample :
    (search gNV ctxEx 2 TS.root tNV).map
        (fun p => getNsa p.2 (keyOf gNV TS.root) (-1)) = some 1 := by
  norm_num [search, expandLeaf, policy0, keyOf, resolvedPlayer, lookupKV, insertKV, gNV,
    ctxEx, tNV, List.zipWith, selectAction, selectLoop, ucbScore, backupEdge, getNs, getNsa,
    List.range_succ, EPS]

/-- Claim C8 (amended): at a non-terminal, already-expanded node whose
legal-action vector is all zeros, search performs no contract check: the
selection scan leaves the sentinel action -1, which is passed to the
game's transition, and the call proceeds as an ordinary descent through
that child (no error is raised by the search itself). -/
theorem C8_no_error (g : GameE σ ν) (ctx : MCTSCtx ν) (st : σ) (t : Tables) (fuel : Nat)
    (ps : List ℚ)
    (hnt : g.get_game_ended st (resolvedPlayer g st) = 0)
    (hps : lookupKV t.Ps (keyOf g st) = some ps)
    (hz : ∀ a : Nat, (g.get_valid_actions st (resolvedPlayer g st)).getD a 0 = 0) :
    selectAction g ctx t (keyOf g st) (g.get_valid_actions st (resolvedPlayer g st)) ps = -1 ∧
    search g ctx (fuel + 1) st t =
      (match search g ctx fuel (childState g st (-1)) t with
      | none => none
      | some (v0, t1) =>
        let v1 :=
          if g.alternate_turn = false ∧
              g.statePlayer st ≠
                g.statePlayer (g.get_next_state st (resolvedPlayer g st) (-1)) then -v0
          else v0
        some (if g.alternate_turn then -v1 else v1, backupEdge (keyOf g st) (-1) v1 t1)) := by
  have hsel := selectAction_all_invalid g ctx t (keyOf g st)
    (g.get_valid_actions st (resolvedPlayer g st)) ps hz
  refine ⟨hsel, ?_⟩
  rw [search_select g ctx st fuel t ps hnt hps, hsel]

/-- Witness for the amended C8 at a concrete malformed table and game. -/
theorem C8_witness :
    gNV.get_game_ended TS.root (resolvedPlayer gNV TS.root) = 0 ∧
    lookupKV tNV.Ps (keyOf gNV TS.root) = some [1/2, 1/2] ∧
    (∀ a : Nat, (gNV.get_valid_actions TS.root (resolvedPlayer gNV TS.root)).getD a 0 = 0) ∧
    (selectAction gNV ctxEx tNV (keyOf gNV TS.root)
        (gNV.get_valid_actions TS.root (resolvedPlayer gNV TS.root)) [1/2, 1/2] = -1 ∧
      search gNV ctxEx (1 + 1) TS.root tNV =
        (match search gNV ctxEx 1 (childState gNV TS.root (-1)) tNV with
        | none => none
        | some (v0, t1) =>
          let v1 :=
            if gNV.alternate_turn = false ∧
                gNV.statePlayer TS.root ≠
                  gNV.statePlayer (gNV.get_next_state TS.root
                    (resolvedPlayer gNV TS.root) (-1)) then -v0
            else v0
          some (if gNV.alternate_turn then -v1 else v1,
            backupEdge (keyOf gNV TS.root) (-1) v1 t1))) := by
  have h1 : gNV.get_game_ended TS.root (resolvedPlayer gNV TS.root) = 0 := by
    norm_num [gNV, resolvedPlayer]
  have h2 : lookupKV tNV.Ps (keyOf gNV TS.root) = some [1/2, 1/2] := by
    simp [tNV, keyOf, gNV, lookupKV]
  have h3 : ∀ a : Nat, (gNV.get_valid_actions TS.root (resolvedPlayer gNV TS.root)).getD a 0 = 0 := by
    intro a
    cases a with
    | zero => rfl
    | succ a2 =>
      cases a2 with
      | zero => rfl
      | succ a3 => rfl
  exact ⟨h1, h2, h3, C8_no_error gNV ctxEx TS.root tNV 1 [1/2, 1/2] h1 h2 h3⟩

/-- Claim C1 (code bug): a complete self-play episode of the toy game
that ends in a loss for the recording player (terminal reward -1) still
labels its training example with the recording player's identifier 1; the
returned tuples are `(state, pi, player, player)` and the terminal
outcome is discarded, contradicting the function's own docstring. -/
theorem C1_label_bug :
    execute_episode gEx ctxEx samplerEx 0 1 0 3 TS.root =
      .ok ([((), [1, 0], 1, 1)], emptyTables) ∧
    gEx.stateReward TS.loseS = -1 ∧
    gEx.statePlayer TS.root = 1 := by
  refine ⟨?_, rfl, rfl⟩
  norm_num [execute_episode, executeEpisodeGo, get_action_prob, simsLoop, rootCounts, getNsa,
    lookupKV, emptyTables, keyOf, gEx, ctxEx, samplerEx, natMax, List.range_succ,
    List.replicate, List.set, finalizeExamples]

end Claims

end RL
